import Mathlib

/-!
# gotorrentclient: a verification development

A shallow embedding of `main.go` (the session controller of a single torrent
transfer) together with the properties of its progress formatter, its
configuration builder, its monitor loop and its shutdown paths.

Conventions of the embedding
* Go `int64` / `int` values are Lean `Int`s; where the source can overflow the
  result is reduced with `wrapInt64`.
* Go `float64` values are modelled exactly: a finite value is a signed fraction
  `num / den` (one value has several such representations), and every
  arithmetic operation rounds its exact result to the nearest binary64 value,
  ties to even (`F64.round`).
* `fmt` verbs are modelled by `fmtInt` (`%d`) and `fmtFixed` (`%.Nf`).
* A Go run-time panic is `none`.
-/

namespace GoTorrent

/-! ## Binary64 arithmetic -/

/-- Auxiliary of `ilog2`: the first argument bounds the number of halvings. -/
def log2Aux : Nat → Nat → Nat
  | 0, _ => 0
  | fuel + 1, n => if n < 2 then 0 else log2Aux fuel (n / 2) + 1

/-- Floor of the binary logarithm of a positive natural number (`0` at `0`). -/
def ilog2 (n : Nat) : Nat := log2Aux n n

/-- Floor of the binary logarithm of the positive fraction `p / q`. -/
def floorLog2 (p q : Nat) : Int :=
  if q ≤ p then (ilog2 (p / q) : Int)
  else
    let t := ilog2 (q / p)
    if q ≤ p * 2 ^ t then -(t : Int) else -(t : Int) - 1

/-- The integer nearest to the fraction `p / q`, ties going to the even one. -/
def rne (p q : Nat) : Nat :=
  let d := p / q
  let r := p % q
  if 2 * r < q then d
  else if q < 2 * r then d + 1
  else if d % 2 = 0 then d else d + 1

/-- A binary64 value: a signed fraction `num / den`, an infinity, or NaN. -/
inductive F64 where
  | finite (neg : Bool) (num den : Nat)
  | inf (neg : Bool)
  | nan
  deriving DecidableEq, Repr

namespace F64

/-- Rounding of the exact value `± p / q` (with `q > 0`) to binary64, to nearest
with ties to even: 53 significant bits, the unit in the last place never below
`2 ^ (-1074)`, and overflow to infinity from `2 ^ 1024` on. -/
def round (neg : Bool) (p q : Nat) : F64 :=
  if p = 0 then finite neg 0 1
  else
    let e := max (floorLog2 p q - 52) (-1074)
    if 0 ≤ e then
      let m := rne p (q * 2 ^ e.toNat)
      if 1024 ≤ ilog2 m + e.toNat then inf neg else finite neg (m * 2 ^ e.toNat) 1
    else
      finite neg (rne (p * 2 ^ (-e).toNat) q) (2 ^ (-e).toNat)

/-- Go conversion `float64(i)` of an integer. -/
def ofInt (i : Int) : F64 := round (decide (i < 0)) i.natAbs 1

/-- Go `x * y` on `float64`. -/
def mul : F64 → F64 → F64
  | nan, _ => nan
  | _, nan => nan
  | inf s, inf t => inf (xor s t)
  | inf s, finite t p _ => if p = 0 then nan else inf (xor s t)
  | finite s p _, inf t => if p = 0 then nan else inf (xor s t)
  | finite s p q, finite t u v => round (xor s t) (p * u) (q * v)

/-- Go `x / y` on `float64` (a zero divisor gives an infinity or NaN, never a
panic). -/
def div : F64 → F64 → F64
  | nan, _ => nan
  | _, nan => nan
  | inf _, inf _ => nan
  | inf s, finite t _ _ => inf (xor s t)
  | finite s _ _, inf t => finite (xor s t) 0 1
  | finite s p q, finite t u v =>
      if u = 0 then (if p = 0 then nan else inf (xor s t))
      else round (xor s t) (p * v) (q * u)

/-- The signed numerator of a finite value over the common denominator with
another one. -/
def scaled (neg : Bool) (p : Nat) (otherDen : Nat) : Int :=
  if neg then -((p * otherDen : Nat) : Int) else ((p * otherDen : Nat) : Int)

/-- Go `x >= y` on `float64`: false as soon as one side is NaN. -/
def ge : F64 → F64 → Bool
  | nan, _ => false
  | _, nan => false
  | inf s, inf t => !s || t
  | inf s, finite _ _ _ => !s
  | finite _ _ _, inf t => t
  | finite s p q, finite t u v => decide (scaled t u q ≤ scaled s p v)

/-- Go `x > y` on `float64`: false as soon as one side is NaN. -/
def gt : F64 → F64 → Bool
  | nan, _ => false
  | _, nan => false
  | inf s, inf t => !s && t
  | inf s, finite _ _ _ => !s
  | finite _ _ _, inf t => t
  | finite s p q, finite t u v => decide (scaled t u q < scaled s p v)

/-- The constant `0`. -/
def zero : F64 := finite false 0 1

end F64

/-! ## The `fmt` verbs used by the program -/

/-- Verb `%d` of `fmt.Sprintf` on an integer. -/
def fmtInt (i : Int) : String := toString i

/-- Left padding with the digit `0` up to the width `w`. -/
def padZeros (w : Nat) (s : String) : String :=
  String.mk (List.replicate (w - s.length) '0') ++ s

/-- Verb `%.Nf` of `fmt.Sprintf` with `N = prec`: the exact value of the float,
rounded to `prec` fractional digits (ties to even), in positional form. -/
def fmtFixed (prec : Nat) : F64 → String
  | F64.finite neg p q =>
      let n := rne (p * 10 ^ prec) q
      let s := (if neg then "-" else "") ++ toString (n / 10 ^ prec)
      if prec = 0 then s else s ++ "." ++ padZeros prec (toString (n % 10 ^ prec))
  | F64.inf neg => if neg then "-Inf" else "+Inf"
  | F64.nan => "NaN"

/-! ## `formatBytes` -/

/-- Reduction of an integer to the range of `int64` (two's complement). -/
def wrapInt64 (x : Int) : Int := (x + 2 ^ 63) % 2 ^ 64 - 2 ^ 63

/-- The constant `unit` of `formatBytes`. -/
def unit : Int := 1024

/-- The variables of the loop of `formatBytes`. -/
structure LoopState where
  n : Int
  div : Int
  exp : Int
  deriving DecidableEq, Repr

/-- One iteration of `for n := b / unit; n >= unit; n /= unit { div *= unit; exp++ }`:
`none` when the condition fails and the loop is left. -/
def loopStep (s : LoopState) : Option LoopState :=
  if unit ≤ s.n then some ⟨s.n.tdiv unit, wrapInt64 (s.div * unit), s.exp + 1⟩ else none

/-- The loop of `formatBytes`, run from the state `s` until its condition fails. -/
def scaleLoop (s : LoopState) : LoopState :=
  if h : unit ≤ s.n then scaleLoop ⟨s.n.tdiv unit, wrapInt64 (s.div * unit), s.exp + 1⟩ else s
termination_by s.n.toNat
decreasing_by
  simp only [unit] at h
  have h1 : s.n.tdiv 1024 = s.n / 1024 := Int.tdiv_eq_ediv (by omega) (by omega)
  show (s.n.tdiv 1024).toNat < s.n.toNat
  rw [h1]
  omega

/-- Indexing `s[i]` of a Go string of ASCII characters: `none` is the run-time
panic of an index out of range. -/
def byteAt (s : String) (i : Int) : Option Char :=
  if i < 0 then none else s.toList.get? i.toNat

/-- The function `formatBytes` of `main.go`. -/
def formatBytes (b : Int) : Option String :=
  if b < unit then some (fmtInt b ++ " B")
  else
    let s := scaleLoop ⟨b.tdiv unit, unit, 0⟩
    match byteAt "KMGTPE" s.exp with
    | none => none
    | some c =>
        some (fmtFixed 1 (F64.div (F64.ofInt b) (F64.ofInt s.div)) ++ " "
          ++ String.singleton c ++ "iB")

/-- The states the loop of `formatBytes b` goes through, from its initialisation
`n := b / unit`, `div := unit`, `exp := 0` on. -/
inductive Reach (b : Int) : LoopState → Prop
  | init : Reach b ⟨b.tdiv unit, unit, 0⟩
  | step {s t : LoopState} : Reach b s → loopStep s = some t → Reach b t

/-- The invariant of the loop of `formatBytes b`: after `j` iterations `exp = j`,
`div = 1024 ^ (j + 1)` and `n = b / 1024 ^ (j + 1)`. -/
def LoopInv (b : Int) (s : LoopState) : Prop :=
  ∃ j : Nat, j ≤ 5 ∧ s.exp = j ∧ s.div = 1024 ^ (j + 1) ∧ s.n = b / 1024 ^ (j + 1) ∧
    (1024 ≤ b → 1 ≤ s.n)

/-- The natural number `n` rounded to 53 significant bits (to nearest, ties to
even): the value of `float64(n)` for an `n` of 64 bits. Numbers up to `2 ^ 53`
are left unchanged. -/
def nearest53 (n : Nat) : Nat :=
  let s := ilog2 n - 52
  rne n (2 ^ s) * 2 ^ s

/-- The unit letters `K, M, G, T, P, E`, in this order. -/
def unitLetters : List Char := ['K', 'M', 'G', 'T', 'P', 'E']

/-- The result as C2 words it, for a byte count `b` with
`1024 ^ k ≤ b < 1024 ^ (k + 1)` and the `k`-th unit letter `c`: the exact value
`b / 1024 ^ k` printed with one fractional digit (to nearest, ties to even, the
rounding of `%.1f`), a space, the letter and `iB`. -/
def formatBytesClaimed (b k : Nat) (c : Char) : String :=
  fmtFixed 1 (F64.finite false b (1024 ^ k)) ++ " " ++ String.singleton c ++ "iB"

/-! ## Session set-up: rate limits, proxy, data directory, client -/

/-- The command-line flags and positional arguments read by `main`. -/
structure Flags where
  maxPeers : Int
  downloadDir : String
  downloadRateMbps : F64
  uploadRateMbps : F64
  seedRatio : F64
  enableSeeding : Bool
  proxyURL : String
  args : List String

/-- A token-bucket limiter `rate.NewLimiter(limit, burst)`. -/
structure Limiter where
  limit : F64
  burst : Int
  deriving DecidableEq, Repr

/-- The part of a parsed proxy URL that `main` looks at. -/
structure ParsedURL where
  scheme : String
  host : String
  deriving DecidableEq, Repr

/-- A field of the client configuration that `main` may or may not assign: either
the value of `torrent.NewDefaultClientConfig()` is left in place, or `main` has
assigned a value of its own. -/
inductive Setting (α : Type) where
  | untouched
  | assigned (v : α)
  deriving DecidableEq, Repr

/-- The fields of `torrent.ClientConfig` that `main` deals with. The dial hook
`HTTPDialContext` is represented by the proxy URL its SOCKS5 dialer was built
from. -/
structure ClientConfig where
  NoUpload : Bool
  DataDir : String
  EstablishedConnsPerTorrent : Int
  DownloadRateLimiter : Setting Limiter
  UploadRateLimiter : Setting Limiter
  HTTPProxy : Setting ParsedURL
  HTTPDialContext : Setting ParsedURL
  deriving DecidableEq, Repr

/-- The reasons for which `main` calls `log.Fatalf` during set-up. -/
inductive Fatal where
  | usage
  | proxyParse (url err : String)
  | socksDialer (url err : String)
  | unsupportedScheme (scheme : String)
  | mkdir (dir err : String)
  | newClient (err : String)
  deriving DecidableEq, Repr

/-- What `main` does that is visible from outside during set-up, in order. -/
inductive Event where
  | logDownloadRate (mbps : String)
  | logUploadRate (mbps : String)
  | logSeeding (ratio : Option String)
  | logSeedingDisabled
  | logHTTPProxy (host : String)
  | logSocksProxy (host : String)
  | mkdirAll (dir : String)
  | newClient (cfg : ClientConfig)
  | fatal (reason : Fatal)
  deriving DecidableEq, Repr

/-- The library and system calls of the set-up, whose results `main` only
inspects: `url.Parse`, `proxy.FromURL`, `os.MkdirAll` and `torrent.NewClient`
(each gives `none` on success of a call without result, or an error text). -/
structure Env where
  urlParse : String → Except String ParsedURL
  proxyFromURL : ParsedURL → Option String
  mkdirAll : String → Option String
  newClient : ClientConfig → Option String

/-- The limiter installed for a rate given in Mbps: `rate.Limit(mbps * 1024 * 1024 / 8)`
with a burst of `512 * 1024`. -/
def rateLimiter (mbps : F64) : Limiter :=
  ⟨F64.div (F64.mul (F64.mul mbps (F64.ofInt 1024)) (F64.ofInt 1024)) (F64.ofInt 8), 512 * 1024⟩

/-- Lines 37 to 69 of `main`: the configuration built from the flags, before the
proxy is looked at, and the lines logged meanwhile. -/
def baseConfig (fl : Flags) : ClientConfig × List Event :=
  let cfg0 : ClientConfig :=
    { NoUpload := !fl.enableSeeding
      DataDir := fl.downloadDir
      EstablishedConnsPerTorrent := fl.maxPeers
      DownloadRateLimiter := Setting.untouched
      UploadRateLimiter := Setting.untouched
      HTTPProxy := Setting.untouched
      HTTPDialContext := Setting.untouched }
  let (cfg1, log1) :=
    if F64.gt fl.downloadRateMbps F64.zero then
      ({ cfg0 with DownloadRateLimiter := Setting.assigned (rateLimiter fl.downloadRateMbps) },
        [Event.logDownloadRate (fmtFixed 2 fl.downloadRateMbps)])
    else (cfg0, [])
  let (cfg2, log2) :=
    if F64.gt fl.uploadRateMbps F64.zero then
      ({ cfg1 with UploadRateLimiter := Setting.assigned (rateLimiter fl.uploadRateMbps) },
        [Event.logUploadRate (fmtFixed 2 fl.uploadRateMbps)])
    else (cfg1, [])
  let log3 :=
    if fl.enableSeeding then
      if F64.gt fl.seedRatio F64.zero then [Event.logSeeding (some (fmtFixed 2 fl.seedRatio))]
      else [Event.logSeeding none]
    else [Event.logSeedingDisabled]
  (cfg2, log1 ++ log2 ++ log3)

/-- Lines 71 to 98 of `main`: the proxy flag. The result is the configuration
and the line logged, or the reason of the fatal exit. -/
def setupProxy (env : Env) (proxyURL : String) (cfg : ClientConfig) :
    Except Fatal (ClientConfig × List Event) :=
  if proxyURL = "" then Except.ok (cfg, [])
  else
    match env.urlParse proxyURL with
    | Except.error err => Except.error (Fatal.proxyParse proxyURL err)
    | Except.ok parsedProxyURL =>
        if parsedProxyURL.scheme = "http" ∨ parsedProxyURL.scheme = "https" then
          Except.ok ({ cfg with HTTPProxy := Setting.assigned parsedProxyURL },
            [Event.logHTTPProxy parsedProxyURL.host])
        else if parsedProxyURL.scheme = "socks5" then
          match env.proxyFromURL parsedProxyURL with
          | some err => Except.error (Fatal.socksDialer proxyURL err)
          | none =>
              Except.ok ({ cfg with HTTPDialContext := Setting.assigned parsedProxyURL },
                [Event.logSocksProxy parsedProxyURL.host])
        else Except.error (Fatal.unsupportedScheme parsedProxyURL.scheme)

/-- Lines 32 to 107 of `main`: everything up to the construction of the client.
The result is the sequence of events; a fatal exit is its last event. -/
def mainSetup (env : Env) (fl : Flags) : List Event :=
  if fl.args.length < 1 then [Event.fatal Fatal.usage]
  else
    match setupProxy env fl.proxyURL (baseConfig fl).1 with
    | Except.error reason => (baseConfig fl).2 ++ [Event.fatal reason]
    | Except.ok (cfg, logs) =>
        match env.mkdirAll cfg.DataDir with
        | some err =>
            (baseConfig fl).2 ++ logs ++
              [Event.mkdirAll cfg.DataDir, Event.fatal (Fatal.mkdir cfg.DataDir err)]
        | none =>
            match env.newClient cfg with
            | some err =>
                (baseConfig fl).2 ++ logs ++
                  [Event.mkdirAll cfg.DataDir, Event.newClient cfg,
                    Event.fatal (Fatal.newClient err)]
            | none =>
                (baseConfig fl).2 ++ logs ++ [Event.mkdirAll cfg.DataDir, Event.newClient cfg]

/-- The set-up has started the session: the client was constructed and no fatal
exit happened. -/
def sessionStarted (trace : List Event) : Prop :=
  (∃ cfg, Event.newClient cfg ∈ trace) ∧ ∀ reason, Event.fatal reason ∉ trace

/-- The events that are lines written to the log (and nothing else). -/
def Event.isLog : Event → Bool
  | Event.mkdirAll _ => false
  | Event.newClient _ => false
  | Event.fatal _ => false
  | _ => true

/-! ## The monitor goroutine -/

/-- What one pass of the monitor loop reads from the torrent: `t.BytesCompleted()`,
`t.Length()`, `stats.BytesWrittenData`, `stats.ActivePeers`, whether `t.Info()`
is `nil`, and `t.Name()`. -/
structure Obs where
  bytesCompleted : Int
  length : Int
  bytesWritten : Int
  activePeers : Int
  infoNil : Bool
  name : String
  deriving DecidableEq, Repr

/-- The variables captured by the monitor goroutine. -/
structure MonState where
  initialBytesCompleted : Int
  bytesUploaded : Int
  seedingStarted : Bool
  deriving DecidableEq, Repr

/-- The state before the first pass: `initialBytesCompleted := int64(0)`,
`var bytesUploaded int64`, `seedingStarted := false`. -/
def MonState.init : MonState := ⟨0, 0, false⟩

/-- The lines the monitor logs, with the arguments of their format strings. -/
inductive LogLine where
  | downloadComplete (name : String)
  | seedingRatio (name : String) (currentRatio seedRatio : String) (uploaded : String)
  | reachedTarget (seedRatio : String)
  | seeding (name : String) (uploaded : String)
  | downloadedBytes (bytesCompleted : Int)
  | progress (percent : String) (downloaded total : String) (peers : Int) (uploaded : String)
  deriving DecidableEq, Repr

/-- How a pass of the monitor loop ends: it sleeps and goes round again, or the
goroutine returns, having sent `SIGTERM` to `sigChan` or not. -/
inductive Control where
  | sleep (seconds : Nat)
  | stop (requestShutdown : Bool)
  deriving DecidableEq, Repr

/-- The outcome of one pass of the monitor loop. -/
structure TickResult where
  state : MonState
  logs : List LogLine
  next : Control
  deriving DecidableEq, Repr

/-- The condition `bytesCompleted == t.Length() && t.Length() > 0`. -/
def downloadComplete (o : Obs) : Bool :=
  decide (o.bytesCompleted = o.length) && decide (0 < o.length)

/-- The value `currentRatio := float64(bytesUploaded) / float64(initialBytesCompleted)`. -/
def currentRatio (bytesUploaded initialBytesCompleted : Int) : F64 :=
  F64.div (F64.ofInt bytesUploaded) (F64.ofInt initialBytesCompleted)

/-- The value `percent := float64(bytesCompleted) / float64(t.Length()) * 100`. -/
def percent (bytesCompleted length : Int) : F64 :=
  F64.mul (F64.div (F64.ofInt bytesCompleted) (F64.ofInt length)) (F64.ofInt 100)

/-- The branch of a pass taken when the download is complete (lines 159 to 200). -/
def tickComplete (enableSeeding : Bool) (seedRatio : F64) (st : MonState) (o : Obs) :
    Option TickResult :=
  let start := !st.seedingStarted && enableSeeding
  let st1 : MonState :=
    if start then ⟨o.bytesCompleted, o.bytesWritten, true⟩
    else ⟨st.initialBytesCompleted, o.bytesWritten, st.seedingStarted⟩
  let log1 := if start then [LogLine.downloadComplete o.name] else []
  if st1.seedingStarted && F64.gt seedRatio F64.zero then
    let ratio := currentRatio st1.bytesUploaded st1.initialBytesCompleted
    match formatBytes st1.bytesUploaded with
    | none => none
    | some uploaded =>
        let log2 := [LogLine.seedingRatio o.name (fmtFixed 2 ratio) (fmtFixed 2 seedRatio) uploaded]
        if F64.ge ratio seedRatio then
          some ⟨st1, log1 ++ log2 ++ [LogLine.reachedTarget (fmtFixed 2 seedRatio)],
            Control.stop true⟩
        else if !enableSeeding then some ⟨st1, log1 ++ log2, Control.stop false⟩
        else some ⟨st1, log1 ++ log2, Control.sleep 5⟩
  else if st1.seedingStarted then
    match formatBytes st1.bytesUploaded with
    | none => none
    | some uploaded =>
        if !enableSeeding then
          some ⟨st1, log1 ++ [LogLine.seeding o.name uploaded], Control.stop false⟩
        else some ⟨st1, log1 ++ [LogLine.seeding o.name uploaded], Control.sleep 5⟩
  else if !enableSeeding then some ⟨st1, log1, Control.stop false⟩
  else some ⟨st1, log1, Control.sleep 5⟩

/-- The branch of a pass taken while the download is not complete (lines 202 to
220). -/
def tickProgress (st : MonState) (o : Obs) : Option TickResult :=
  let st1 : MonState := ⟨st.initialBytesCompleted, o.bytesWritten, st.seedingStarted⟩
  if o.infoNil then some ⟨st1, [], Control.sleep 1⟩
  else if o.length = 0 ∧ 0 < o.bytesCompleted then
    some ⟨st1, [LogLine.downloadedBytes o.bytesCompleted], Control.sleep 2⟩
  else if 0 < o.length then
    match formatBytes o.bytesCompleted with
    | none => none
    | some downloaded =>
        match formatBytes o.length with
        | none => none
        | some total =>
            match formatBytes st1.bytesUploaded with
            | none => none
            | some uploaded =>
                some ⟨st1, [LogLine.progress (fmtFixed 2 (percent o.bytesCompleted o.length))
                  downloaded total o.activePeers uploaded], Control.sleep 2⟩
  else some ⟨st1, [], Control.sleep 2⟩

/-- One pass of the loop of the monitor goroutine (lines 153 to 221); `none` is
a run-time panic. -/
def tick (enableSeeding : Bool) (seedRatio : F64) (st : MonState) (o : Obs) :
    Option TickResult :=
  if downloadComplete o then tickComplete enableSeeding seedRatio st o
  else tickProgress st o

/-- The monitor goroutine as it runs: its variables, whether it has returned,
how many passes it has made and how many times it has sent `SIGTERM`. -/
structure Monitor where
  state : MonState
  returned : Bool
  ticks : Nat
  requests : Nat
  deriving DecidableEq, Repr

/-- The monitor goroutine when it is started. -/
def Monitor.start : Monitor := ⟨MonState.init, false, 0, 0⟩

/-- The monitor after one more observation of the torrent: a goroutine that has
returned reads nothing any more. -/
def Monitor.step (enableSeeding : Bool) (seedRatio : F64) (m : Monitor) (o : Obs) :
    Option Monitor :=
  if m.returned then some m
  else
    match tick enableSeeding seedRatio m.state o with
    | none => none
    | some r =>
        match r.next with
        | Control.sleep _ => some ⟨r.state, false, m.ticks + 1, m.requests⟩
        | Control.stop true => some ⟨r.state, true, m.ticks + 1, m.requests + 1⟩
        | Control.stop false => some ⟨r.state, true, m.ticks + 1, m.requests⟩

/-- The monitor after a sequence of observations. -/
def Monitor.run (enableSeeding : Bool) (seedRatio : F64) :
    Monitor → List Obs → Option Monitor
  | m, [] => some m
  | m, o :: os =>
      match Monitor.step enableSeeding seedRatio m o with
      | none => none
      | some m1 => Monitor.run enableSeeding seedRatio m1 os

/-- The states of the monitor variables reachable from the initial one by passes
of the loop. -/
inductive MonReach (enableSeeding : Bool) (seedRatio : F64) : MonState → Prop
  | init : MonReach enableSeeding seedRatio MonState.init
  | step {st : MonState} {o : Obs} {r : TickResult} :
      MonReach enableSeeding seedRatio st → tick enableSeeding seedRatio st o = some r →
      MonReach enableSeeding seedRatio r.state

/-- The observations a Go program can make: every count is an `int64`. -/
def Obs.inRange (o : Obs) : Prop :=
  o.bytesCompleted < 2 ^ 63 ∧ o.length < 2 ^ 63 ∧ o.bytesWritten < 2 ^ 63 ∧
    -(2 ^ 63) ≤ o.bytesWritten

/-- The ratio test in `float64`, for a pass that reads `bytesWritten` while the
baseline is `B`: both integers are converted to `float64`, their quotient is
rounded to `float64` and compared with the target ratio. -/
def ratioReached (sr : F64) (B : Int) (o : Obs) : Bool :=
  F64.ge (F64.div (F64.ofInt o.bytesWritten) (F64.ofInt B)) sr

/-- The ratio test as C6 words it, `bytesUploaded / B >= r`, on the exact ratio
of the two integers (for a baseline `B > 0`). -/
def ratioReachedClaimed (sr : F64) (B : Int) (o : Obs) : Bool :=
  match sr with
  | F64.finite s p q => decide (F64.scaled s p 1 * B ≤ o.bytesWritten * q)
  | F64.inf s => s
  | F64.nan => false

/-- A pass of a running monitor in the seeding phase with baseline `B`. -/
def Seeding (B : Int) (m : Monitor) : Prop :=
  m.returned = false ∧ (m.state.seedingStarted = true → m.state.initialBytesCompleted = B)

/-- An observation of a complete download of `B` bytes. -/
def CompleteAt (B : Int) (o : Obs) : Prop :=
  downloadComplete o = true ∧ o.bytesCompleted = B ∧ o.bytesWritten < 2 ^ 63

/-! ## Shutdown: the signal handler, the deferred `Close` and `WaitAll` -/

/-- Where the goroutine started at line 112 stands: blocked on `<-sigChan`,
having received a signal but not yet called `client.Close()`, or finished. -/
inductive Handler where
  | waiting
  | received
  | done
  deriving DecidableEq, Repr

/-- Where `main` stands after `defer client.Close()`: adding the torrent and
waiting for its info, blocked in `client.WaitAll()`, or gone (the process has
exited). -/
inductive MainPhase where
  | adding
  | waitAll
  | exited
  deriving DecidableEq, Repr

/-- The state of the process from line 120 on. `sigChan` is the number of
signals in the channel (its capacity is 1), `closeCalls` counts the invocations
of `client.Close()`. -/
structure Proc where
  sigChan : Nat
  handler : Handler
  phase : MainPhase
  clientClosed : Bool
  downloadDone : Bool
  closeCalls : Nat
  returnedNormally : Bool
  deriving DecidableEq, Repr

/-- The process just after `defer client.Close()`. -/
def Proc.init : Proc := ⟨0, Handler.waiting, MainPhase.adding, false, false, 0, false⟩

/-- The steps of the process and of its environment. -/
inductive Step where
  | osSignal
  | ratioRequest
  | handlerReceive
  | handlerClose
  | addFails
  | addSucceeds
  | downloadFinishes
  | mainReturns
  deriving DecidableEq, Repr

/-- The effect of a step; a step that cannot be taken leaves the state as it is.
* `osSignal`: the runtime delivers `SIGINT` or `SIGTERM` to `sigChan` without
  blocking (a signal is dropped when the channel is full).
* `ratioRequest`: the goroutine started by the monitor performs
  `sigChan <- syscall.SIGTERM` (it stays blocked while the channel is full).
* `handlerReceive`, `handlerClose`: the handler goroutine performs
  `sig := <-sigChan`, then `client.Close()`.
* `addFails`: adding the torrent fails and `log.Fatalf` exits the process, the
  deferred call is not run.
* `addSucceeds`: `main` reaches `client.WaitAll()`.
* `downloadFinishes`: all torrents complete.
* `mainReturns`: `WaitAll` returns, because the client is closed or the
  download is complete, and `main` returns, running the deferred
  `client.Close()`. -/
def Proc.step (p : Proc) : Step → Proc
  | Step.osSignal =>
      if p.phase ≠ MainPhase.exited ∧ p.sigChan = 0 then { p with sigChan := 1 } else p
  | Step.ratioRequest =>
      if p.phase = MainPhase.waitAll ∧ p.sigChan = 0 then { p with sigChan := 1 } else p
  | Step.handlerReceive =>
      if p.phase ≠ MainPhase.exited ∧ p.handler = Handler.waiting ∧ p.sigChan = 1 then
        { p with sigChan := 0, handler := Handler.received }
      else p
  | Step.handlerClose =>
      if p.phase ≠ MainPhase.exited ∧ p.handler = Handler.received then
        { p with handler := Handler.done, clientClosed := true, closeCalls := p.closeCalls + 1 }
      else p
  | Step.addFails =>
      if p.phase = MainPhase.adding then { p with phase := MainPhase.exited } else p
  | Step.addSucceeds =>
      if p.phase = MainPhase.adding then { p with phase := MainPhase.waitAll } else p
  | Step.downloadFinishes =>
      if p.phase = MainPhase.waitAll then { p with downloadDone := true } else p
  | Step.mainReturns =>
      if p.phase = MainPhase.waitAll ∧ (p.clientClosed ∨ p.downloadDone) then
        { p with phase := MainPhase.exited, closeCalls := p.closeCalls + 1,
                 returnedNormally := true }
      else p

/-- The state of the process after a sequence of steps. -/
def Proc.run (p : Proc) (steps : List Step) : Proc := steps.foldl Proc.step p

/-- The number of invocations of `client.Close()` accounted for by the state:
one when the handler goroutine has made its call, one when `main` has returned
and run the deferred call. -/
def Proc.accounted (p : Proc) : Nat :=
  (if p.handler = Handler.done then 1 else 0) + (if p.returnedNormally then 1 else 0)

/-- The invariant of the shutdown model. -/
def Proc.Inv (p : Proc) : Prop :=
  p.closeCalls = p.accounted ∧ (p.returnedNormally = true → p.phase = MainPhase.exited)

/-! # Theorems -/

/-! ## Facts about the loop of `formatBytes` -/

theorem tdiv_unit_eq (n : Int) (h : 0 ≤ n) : n.tdiv unit = n / 1024 :=
  Int.tdiv_eq_ediv h (by decide)

theorem loopInv_init (b : Int) (h0 : 0 ≤ b) : LoopInv b ⟨b.tdiv unit, unit, 0⟩ := by
  refine ⟨0, by omega, rfl, rfl, ?_, ?_⟩
  · simp [tdiv_unit_eq b h0]
  · intro h
    simp only [tdiv_unit_eq b h0]
    omega

theorem loopInv_step (b : Int) (h0 : 0 ≤ b) (h63 : b < 2 ^ 63) (s t : LoopState)
    (hs : LoopInv b s) (hst : loopStep s = some t) :
    LoopInv b t ∧ s.div * unit < 2 ^ 63 ∧ t.div = s.div * unit := by
  obtain ⟨j, hj, he, hd, hn, h1⟩ := hs
  unfold loopStep at hst
  split at hst
  · rename_i hge
    have hge' : 1024 ≤ s.n := hge
    have hn0 : 0 ≤ s.n := by omega
    simp only [Option.some.injEq] at hst
    subst hst
    rw [tdiv_unit_eq s.n hn0]
    have key : j ≤ 4 ∧ s.n / 1024 = b / 1024 ^ (j + 2) ∧ 1 ≤ s.n / 1024 ∧
        wrapInt64 (s.div * unit) = 1024 ^ (j + 2) ∧ s.div * unit < 2 ^ 63 ∧
        (1024 : Int) ^ (j + 2) = s.div * unit := by
      simp only [unit, wrapInt64]
      interval_cases j <;> norm_num at hd hn h63 ⊢ <;> omega
    obtain ⟨k1, k2, k3, k4, k5, k6⟩ := key
    refine ⟨⟨j + 1, by omega, ?_, ?_, ?_, ?_⟩, k5, ?_⟩
    · simp only [he]; push_cast; ring
    · exact k4
    · exact k2
    · intro _; exact k3
    · show wrapInt64 (s.div * unit) = s.div * unit
      rw [k4, k6]
  · simp at hst

theorem reach_inv (b : Int) (h0 : 0 ≤ b) (h63 : b < 2 ^ 63) (s : LoopState)
    (hr : Reach b s) : LoopInv b s := by
  induction hr with
  | init => exact loopInv_init b h0
  | step _ hst ih => exact (loopInv_step b h0 h63 _ _ ih hst).1

theorem scaleLoop_reach (b : Int) (s : LoopState) (hr : Reach b s) :
    Reach b (scaleLoop s) ∧ loopStep (scaleLoop s) = none := by
  induction s using scaleLoop.induct with
  | case1 s h ih =>
    have hst : loopStep s = some ⟨s.n.tdiv unit, wrapInt64 (s.div * unit), s.exp + 1⟩ := by
      simp [loopStep, h]
    rw [scaleLoop, dif_pos h]
    exact ih (Reach.step hr hst)
  | case2 s h =>
    rw [scaleLoop, dif_neg h]
    exact ⟨hr, by simp [loopStep, h]⟩

/-! ### Facts about the arithmetic helpers -/

theorem log2Aux_spec (fuel : Nat) : ∀ n : Nat, n ≤ fuel → 0 < n →
    2 ^ log2Aux fuel n ≤ n ∧ n < 2 ^ (log2Aux fuel n + 1) := by
  induction fuel with
  | zero => intro n h1 h2; omega
  | succ f ih =>
    intro n h1 h2
    unfold log2Aux
    split
    · simp; omega
    · have h3 := ih (n / 2) (by omega) (by omega)
      have e1 : 2 ^ (log2Aux f (n / 2) + 1) = 2 * 2 ^ log2Aux f (n / 2) := by ring
      have e2 : 2 ^ (log2Aux f (n / 2) + 1 + 1) = 4 * 2 ^ log2Aux f (n / 2) := by ring
      rw [e2, e1]
      rw [e1] at h3
      omega

theorem ilog2_spec (n : Nat) (h : 0 < n) : 2 ^ ilog2 n ≤ n ∧ n < 2 ^ (ilog2 n + 1) :=
  log2Aux_spec n n (Nat.le_refl n) h

theorem ilog2_lt_of_lt (n k : Nat) (h : 0 < n) (hk : n < 2 ^ k) : ilog2 n < k := by
  have h1 := (ilog2_spec n h).1
  exact (Nat.pow_lt_pow_iff_right (by decide : 1 < 2)).mp (Nat.lt_of_le_of_lt h1 hk)

theorem le_ilog2_of_le (n k : Nat) (hk : 2 ^ k ≤ n) : k ≤ ilog2 n := by
  have h : 0 < n := Nat.lt_of_lt_of_le (Nat.two_pow_pos k) hk
  have h1 := (ilog2_spec n h).2
  have := (Nat.pow_lt_pow_iff_right (by decide : 1 < 2)).mp (Nat.lt_of_le_of_lt hk h1)
  omega

theorem rne_mul_left (c p q : Nat) (hc : 0 < c) : rne (c * p) (c * q) = rne p q := by
  unfold rne
  simp only [Nat.mul_div_mul_left p q hc, Nat.mul_mod_mul_left]
  have h1 : 2 * (c * (p % q)) < c * q ↔ 2 * (p % q) < q := by
    rw [show 2 * (c * (p % q)) = c * (2 * (p % q)) by ring]
    exact Nat.mul_lt_mul_left hc
  have h2 : c * q < 2 * (c * (p % q)) ↔ q < 2 * (p % q) := by
    rw [show 2 * (c * (p % q)) = c * (2 * (p % q)) by ring]
    exact Nat.mul_lt_mul_left hc
  simp only [h1, h2]

theorem rne_congr (p q u v : Nat) (hq : 0 < q) (hv : 0 < v) (h : p * v = u * q) :
    rne p q = rne u v := by
  rw [← rne_mul_left v p q hv, ← rne_mul_left q u v hq]
  congr 1
  · rw [Nat.mul_comm v p, h, Nat.mul_comm]
  · exact Nat.mul_comm v q

theorem rne_of_dvd (p q : Nat) (hq : 0 < q) (h : q ∣ p) : rne p q = p / q := by
  unfold rne
  have : p % q = 0 := Nat.mod_eq_zero_of_dvd h
  simp [this, hq]

theorem rne_ge (p q : Nat) : p / q ≤ rne p q := by
  unfold rne
  simp only
  split_ifs <;> omega

theorem rne_le (p q : Nat) : rne p q ≤ p / q + 1 := by
  unfold rne
  simp only
  split_ifs <;> omega

theorem floorLog2_mul_left (c p q : Nat) (hc : 0 < c) :
    floorLog2 (c * p) (c * q) = floorLog2 p q := by
  unfold floorLog2
  have h1 : c * q ≤ c * p ↔ q ≤ p := mul_le_mul_left hc
  have h2 : ∀ t, c * q ≤ c * p * 2 ^ t ↔ q ≤ p * 2 ^ t := by
    intro t
    rw [Nat.mul_assoc]
    exact mul_le_mul_left hc
  simp only [h1, h2, Nat.mul_div_mul_left _ _ hc]

/-! ### Facts about the rounding to binary64 -/

theorem round_mul_left (neg : Bool) (c p q : Nat) (hc : 0 < c) :
    F64.round neg (c * p) (c * q) = F64.round neg p q := by
  unfold F64.round
  have h0 : c * p = 0 ↔ p = 0 := by
    constructor
    · intro h
      rcases Nat.eq_zero_or_pos p with h1 | h1
      · exact h1
      · have := Nat.mul_pos hc h1
        omega
    · intro h; simp [h]
  have h1 : ∀ k, rne (c * p) (c * q * k) = rne p (q * k) := by
    intro k
    rw [Nat.mul_assoc]
    exact rne_mul_left c p (q * k) hc
  have h2 : ∀ k, rne (c * p * k) (c * q) = rne (p * k) q := by
    intro k
    rw [Nat.mul_assoc]
    exact rne_mul_left c (p * k) q hc
  simp only [h0, h1, h2, floorLog2_mul_left c p q hc]

theorem round_of_neg_exp (neg : Bool) (p q : Nat) (hp : 0 < p) (t : Nat)
    (ht : floorLog2 p q - 52 = -(t : Int)) (ht0 : 0 < t) (ht1 : t ≤ 1074) :
    F64.round neg p q = F64.finite neg (rne (p * 2 ^ t) q) (2 ^ t) := by
  unfold F64.round
  have hp0 : p ≠ 0 := by omega
  have he : max (floorLog2 p q - 52) (-1074) = -(t : Int) := by
    rw [ht]; omega
  simp only [hp0, he, if_false]
  have h1 : ¬ (0 ≤ -(t : Int)) := by omega
  simp only [h1, if_false, neg_neg, Int.toNat_ofNat]

theorem round_of_nonneg_exp (neg : Bool) (p q : Nat) (hp : 0 < p) (e : Nat)
    (he : floorLog2 p q - 52 = (e : Int))
    (hov : ilog2 (rne p (q * 2 ^ e)) + e < 1024) :
    F64.round neg p q = F64.finite neg (rne p (q * 2 ^ e) * 2 ^ e) 1 := by
  unfold F64.round
  have hp0 : p ≠ 0 := by omega
  have he2 : max (floorLog2 p q - 52) (-1074) = (e : Int) := by
    rw [he]; omega
  simp only [hp0, he2, if_false]
  have h1 : (0 : Int) ≤ (e : Int) := by omega
  have h2 : ¬ (1024 ≤ ilog2 (rne p (q * 2 ^ e)) + e) := by omega
  simp only [h1, if_true, Int.toNat_ofNat, h2, if_false]

theorem floorLog2_one (n : Nat) (h : 0 < n) : floorLog2 n 1 = (ilog2 n : Int) := by
  unfold floorLog2
  have : 1 ≤ n := h
  simp [this]

theorem rne_one (n : Nat) : rne n 1 = n := by
  unfold rne
  simp [Nat.mod_one]

theorem nearest53_small (n : Nat) (h : n < 2 ^ 53) : nearest53 n = n := by
  unfold nearest53
  rcases Nat.eq_zero_or_pos n with h0 | h0
  · subst h0; decide
  · have := ilog2_lt_of_lt n 53 h0 h
    have hs : ilog2 n - 52 = 0 := by omega
    simp [hs, rne_one]
theorem nearest53_bounds (n : Nat) (h0 : 0 < n) :
    2 ^ ilog2 n ≤ nearest53 n ∧ nearest53 n ≤ 2 ^ (ilog2 n + 1) ∧
    rne n (2 ^ (ilog2 n - 52)) ≤ 2 ^ 53 := by
  obtain ⟨h1, h2⟩ := ilog2_spec n h0
  unfold nearest53
  simp only
  rcases Nat.lt_or_ge (ilog2 n) 52 with hl | hl
  · have hs : ilog2 n - 52 = 0 := by omega
    have h3 : n < 2 ^ 53 := by
      have : (2:Nat) ^ (ilog2 n + 1) ≤ 2 ^ 53 := Nat.pow_le_pow_right (by decide) (by omega)
      omega
    simp only [hs, pow_zero, rne_one, Nat.mul_one]
    omega
  · obtain ⟨s, hs⟩ : ∃ s, ilog2 n = s + 52 := ⟨ilog2 n - 52, by omega⟩
    have hs' : ilog2 n - 52 = s := by omega
    rw [hs'] 
    rw [hs] at h1 h2 ⊢
    have hpos : 0 < 2 ^ s := Nat.two_pow_pos s
    have e1 : (2:Nat) ^ (s + 52) = 2 ^ 52 * 2 ^ s := by ring
    have e2 : (2:Nat) ^ (s + 52 + 1) = 2 ^ 53 * 2 ^ s := by ring
    have hm1 : 2 ^ 52 ≤ rne n (2 ^ s) := by
      have : 2 ^ 52 ≤ n / 2 ^ s := (Nat.le_div_iff_mul_le hpos).mpr (by rw [← e1]; exact h1)
      exact Nat.le_trans this (rne_ge n (2 ^ s))
    have hm2 : rne n (2 ^ s) ≤ 2 ^ 53 := by
      have : n / 2 ^ s < 2 ^ 53 := (Nat.div_lt_iff_lt_mul hpos).mpr (by rw [← e2]; exact h2)
      have := rne_le n (2 ^ s)
      omega
    refine ⟨?_, ?_, hm2⟩
    · rw [e1]; exact Nat.mul_le_mul_right _ hm1
    · rw [e2]; exact Nat.mul_le_mul_right _ hm2

theorem ofInt_natCast (n : Nat) (h0 : 0 < n) (h : n < 2 ^ 64) :
    F64.ofInt (n : Int) =
      if ilog2 n < 52 then F64.finite false (n * 2 ^ (52 - ilog2 n)) (2 ^ (52 - ilog2 n))
      else F64.finite false (nearest53 n) 1 := by
  unfold F64.ofInt
  have hneg : decide ((n : Int) < 0) = false := by simp
  rw [hneg, Int.natAbs_ofNat]
  split
  · rename_i hl
    rw [round_of_neg_exp false n 1 h0 (52 - ilog2 n) (by rw [floorLog2_one n h0]; omega)
      (by omega) (by omega), rne_one]
  · rename_i hl
    have hb := nearest53_bounds n h0
    have hl2 : ilog2 n < 64 := ilog2_lt_of_lt n 64 h0 h
    have hm : rne n (2 ^ (ilog2 n - 52)) < 2 ^ 54 := by
      have := hb.2.2
      have : (2:Nat) ^ 53 < 2 ^ 54 := by norm_num
      omega
    have hov : ilog2 (rne n (1 * 2 ^ (ilog2 n - 52))) + (ilog2 n - 52) < 1024 := by
      rw [Nat.one_mul]
      rcases Nat.eq_zero_or_pos (rne n (2 ^ (ilog2 n - 52))) with hz | hz
      · rw [hz]
        have : ilog2 0 = 0 := by decide
        omega
      · have := ilog2_lt_of_lt _ 54 hz hm
        omega
    rw [round_of_nonneg_exp false n 1 h0 (ilog2 n - 52) (by rw [floorLog2_one n h0]; omega) hov,
      Nat.one_mul]
    rfl

theorem div_ofInt_ofInt (n d : Nat) (hn : 0 < n) (hn2 : n < 2 ^ 64) (hd : 0 < d)
    (hd2 : d < 2 ^ 64) :
    F64.div (F64.ofInt (n : Int)) (F64.ofInt (d : Int)) =
      F64.round false (nearest53 n) (nearest53 d) := by
  have hsmall : ∀ k : Nat, 0 < k → ilog2 k < 52 → nearest53 k = k := by
    intro k hk hl
    apply nearest53_small
    have h2 := (ilog2_spec k hk).2
    have : (2:Nat) ^ (ilog2 k + 1) ≤ 2 ^ 53 := Nat.pow_le_pow_right (by decide) (by omega)
    omega
  have hPd : 0 < nearest53 d :=
    Nat.lt_of_lt_of_le (Nat.two_pow_pos _) (nearest53_bounds d hd).1
  rw [ofInt_natCast n hn hn2, ofInt_natCast d hd hd2]
  split <;> split
  · rename_i h1 h2
    rw [hsmall n hn h1, hsmall d hd h2]
    have hd0 : d * 2 ^ (52 - ilog2 d) ≠ 0 :=
      Nat.pos_iff_ne_zero.mp (Nat.mul_pos hd (Nat.two_pow_pos _))
    simp only [F64.div, hd0, if_false, Bool.xor_false]
    rw [show n * 2 ^ (52 - ilog2 n) * 2 ^ (52 - ilog2 d)
        = (2 ^ (52 - ilog2 n) * 2 ^ (52 - ilog2 d)) * n by ring,
      show 2 ^ (52 - ilog2 n) * (d * 2 ^ (52 - ilog2 d))
        = (2 ^ (52 - ilog2 n) * 2 ^ (52 - ilog2 d)) * d by ring]
    exact round_mul_left false _ n d (Nat.mul_pos (Nat.two_pow_pos _) (Nat.two_pow_pos _))
  · rename_i h1 h2
    rw [hsmall n hn h1]
    have hd0 : nearest53 d ≠ 0 := by omega
    simp only [F64.div, hd0, if_false, Bool.xor_false]
    rw [show n * 2 ^ (52 - ilog2 n) * 1 = 2 ^ (52 - ilog2 n) * n by ring]
    exact round_mul_left false _ n _ (Nat.two_pow_pos _)
  · rename_i h1 h2
    rw [hsmall d hd h2]
    have hd0 : d * 2 ^ (52 - ilog2 d) ≠ 0 :=
      Nat.pos_iff_ne_zero.mp (Nat.mul_pos hd (Nat.two_pow_pos _))
    simp only [F64.div, hd0, if_false, Bool.xor_false]
    rw [show nearest53 n * 2 ^ (52 - ilog2 d) = 2 ^ (52 - ilog2 d) * nearest53 n by ring,
      show 1 * (d * 2 ^ (52 - ilog2 d)) = 2 ^ (52 - ilog2 d) * d by ring]
    exact round_mul_left false _ _ d (Nat.two_pow_pos _)
  · have hd0 : nearest53 d ≠ 0 := by omega
    simp only [F64.div, hd0, if_false, Bool.xor_false, Nat.mul_one, Nat.one_mul]
theorem fmtFixed_congr (prec : Nat) (neg : Bool) (p q u v : Nat) (hq : 0 < q) (hv : 0 < v)
    (h : p * v = u * q) :
    fmtFixed prec (F64.finite neg p q) = fmtFixed prec (F64.finite neg u v) := by
  have : rne (p * 10 ^ prec) q = rne (u * 10 ^ prec) v := by
    apply rne_congr _ _ _ _ hq hv
    calc p * 10 ^ prec * v = p * v * 10 ^ prec := by ring
      _ = u * q * 10 ^ prec := by rw [h]
      _ = u * 10 ^ prec * q := by ring
  simp only [fmtFixed, this]

/-- Dividing a float of at most 53 significant bits by a power of two below it
is exact. -/
theorem round_div_pow2 (P j : Nat) (hP : 0 < P) (hfit : 2 ^ ilog2 P ∣ P * 2 ^ 52)
    (hlow : 2 ^ j ≤ P) (hup : P < 2 ^ (j + 52)) :
    ∃ m t, 0 < t ∧ F64.round false P (2 ^ j) = F64.finite false m (2 ^ t) ∧
      m * 2 ^ j = P * 2 ^ t := by
  have hj : 0 < 2 ^ j := Nat.two_pow_pos j
  have hq : 0 < P / 2 ^ j := (Nat.le_div_iff_mul_le hj).mpr (by simpa using hlow)
  obtain ⟨l1, l2⟩ := ilog2_spec (P / 2 ^ j) hq
  obtain ⟨k1, k2⟩ := ilog2_spec P hP
  have hL : ilog2 (P / 2 ^ j) < 52 := by
    apply ilog2_lt_of_lt _ _ hq
    apply (Nat.div_lt_iff_lt_mul hj).mpr
    rw [← Nat.pow_add, Nat.add_comm]; exact hup
  have hLj : ilog2 (P / 2 ^ j) + j ≤ ilog2 P := by
    apply le_ilog2_of_le
    rw [Nat.pow_add]
    exact (Nat.le_div_iff_mul_le hj).mp l1
  have hfl : floorLog2 P (2 ^ j) = (ilog2 (P / 2 ^ j) : Int) := by
    unfold floorLog2
    simp [hlow]
  refine ⟨rne (P * 2 ^ (52 - ilog2 (P / 2 ^ j))) (2 ^ j), 52 - ilog2 (P / 2 ^ j), by omega,
    round_of_neg_exp false P (2 ^ j) hP _ (by rw [hfl]; omega) (by omega) (by omega), ?_⟩
  have hdvd : 2 ^ j ∣ P * 2 ^ (52 - ilog2 (P / 2 ^ j)) := by
    obtain ⟨c, hc⟩ := hfit
    obtain ⟨r, hr⟩ : ∃ r, ilog2 P = ilog2 (P / 2 ^ j) + j + r :=
      ⟨ilog2 P - (ilog2 (P / 2 ^ j) + j), by omega⟩
    refine ⟨2 ^ r * c, ?_⟩
    have e52 : (2:Nat) ^ 52 = 2 ^ (52 - ilog2 (P / 2 ^ j)) * 2 ^ ilog2 (P / 2 ^ j) := by
      rw [← Nat.pow_add]; congr 1; omega
    have hL0 : 0 < 2 ^ ilog2 (P / 2 ^ j) := Nat.two_pow_pos _
    apply Nat.eq_of_mul_eq_mul_right hL0
    calc P * 2 ^ (52 - ilog2 (P / 2 ^ j)) * 2 ^ ilog2 (P / 2 ^ j)
        = P * 2 ^ 52 := by rw [e52]; ring
      _ = 2 ^ ilog2 P * c := hc
      _ = 2 ^ j * (2 ^ r * c) * 2 ^ ilog2 (P / 2 ^ j) := by rw [hr]; ring
  rw [rne_of_dvd _ _ hj hdvd]
  exact Nat.div_mul_cancel hdvd

theorem nearest53_fits (n : Nat) (h0 : 0 < n) :
    2 ^ ilog2 (nearest53 n) ∣ nearest53 n * 2 ^ 52 := by
  obtain ⟨b1, b2, b3⟩ := nearest53_bounds n h0
  have hP : 0 < nearest53 n := Nat.lt_of_lt_of_le (Nat.two_pow_pos _) b1
  obtain ⟨k1, k2⟩ := ilog2_spec _ hP
  rcases Nat.lt_or_ge (ilog2 n) 52 with hl | hl
  · have h3 : n < 2 ^ 53 := by
      have := (ilog2_spec n h0).2
      have : (2:Nat) ^ (ilog2 n + 1) ≤ 2 ^ 53 := Nat.pow_le_pow_right (by decide) (by omega)
      omega
    rw [nearest53_small n h3]
    have : ilog2 n ≤ 52 := by omega
    exact Dvd.dvd.mul_left (Nat.pow_dvd_pow 2 this) n
  · rcases Nat.lt_or_ge (nearest53 n) (2 ^ (ilog2 n + 1)) with hlt | hge
    · have hi : ilog2 (nearest53 n) ≤ ilog2 n := by
        have := ilog2_lt_of_lt _ _ hP hlt
        omega
      have e : nearest53 n = rne n (2 ^ (ilog2 n - 52)) * 2 ^ (ilog2 n - 52) := rfl
      rw [e]
      have : 2 ^ ilog2 (nearest53 n) ∣ 2 ^ (ilog2 n - 52) * 2 ^ 52 := by
        rw [← Nat.pow_add]
        exact Nat.pow_dvd_pow 2 (by omega)
      rw [Nat.mul_assoc]
      exact Dvd.dvd.mul_left this _
    · have e : nearest53 n = 2 ^ (ilog2 n + 1) := Nat.le_antisymm b2 hge
      rw [e]
      have hi : ilog2 (2 ^ (ilog2 n + 1)) < ilog2 n + 2 :=
        ilog2_lt_of_lt _ _ (Nat.two_pow_pos _)
          (Nat.pow_lt_pow_right (by decide) (by omega))
      rw [← Nat.pow_add]
      exact Nat.pow_dvd_pow 2 (by omega)
/-! ## The progress formatter -/

theorem byteAt_letters (j : Nat) : byteAt "KMGTPE" (j : Int) = unitLetters.get? j := by
  unfold byteAt
  have : ¬ ((j : Int) < 0) := by omega
  simp only [this, if_false, Int.toNat_ofNat]
  rfl

theorem pow1024 (k : Nat) : (1024 : Nat) ^ k = 2 ^ (10 * k) := by
  rw [Nat.pow_mul]

/-- The loop of `formatBytes b` ends with `div = 1024 ^ k` and `exp = k - 1`, where
`1024 ^ k ≤ b < 1024 ^ (k + 1)`. -/
theorem scaleLoop_final (b : Int) (k : Nat) (hk1 : 1 ≤ k) (hk6 : k ≤ 6)
    (hlo : 1024 ^ k ≤ b) (hhi : b < 1024 ^ (k + 1)) (h63 : b < 2 ^ 63) :
    (scaleLoop ⟨b.tdiv unit, unit, 0⟩).div = 1024 ^ k ∧
    (scaleLoop ⟨b.tdiv unit, unit, 0⟩).exp = ((k - 1 : Nat) : Int) := by
  have hb : 1024 ≤ b := by
    interval_cases k <;> norm_num at hlo <;> omega
  obtain ⟨hr, hnone⟩ := scaleLoop_reach b _ (Reach.init)
  obtain ⟨j, hj, he, hd, hn, h1⟩ := reach_inv b (by omega) h63 _ hr
  have hlt : (scaleLoop ⟨b.tdiv unit, unit, 0⟩).n < 1024 := by
    unfold loopStep at hnone
    split at hnone
    · simp at hnone
    · rename_i h; exact not_le.mp h
  have h1' := h1 hb
  have hkj : k = j + 1 := by
    rw [hn] at hlt h1'
    interval_cases j <;> interval_cases k <;> norm_num at hlo hhi hlt h1' ⊢ <;> omega
  subst hkj
  exact ⟨hd, by simpa using he⟩
theorem nearest53_pow1024 (k : Nat) (hk1 : 1 ≤ k) (hk6 : k ≤ 6) :
    nearest53 (1024 ^ k) = 1024 ^ k := by
  interval_cases k <;> decide

theorem nearest53_le (n : Nat) (h : n ≤ 2 ^ 53) : nearest53 n = n := by
  rcases Nat.lt_or_ge n (2 ^ 53) with h1 | h1
  · exact nearest53_small n h1
  · have : n = 2 ^ 53 := Nat.le_antisymm h h1
    subst this
    decide

/-- The quotient `float64(n) / float64(1024 ^ k)` computed by `formatBytes` is
exact: its value is the fraction `nearest53 n / 1024 ^ k`. -/
theorem div_pow1024 (n k : Nat) (hk1 : 1 ≤ k) (hk6 : k ≤ 6)
    (hlo : 1024 ^ k ≤ n) (hhi : n < 1024 ^ (k + 1)) (h63 : n < 2 ^ 63) :
    ∃ m t, F64.div (F64.ofInt (n : Int)) (F64.ofInt ((1024 ^ k : Nat) : Int)) =
        F64.finite false m (2 ^ t) ∧ m * 1024 ^ k = nearest53 n * 2 ^ t := by
  have hd : 0 < 1024 ^ k := Nat.pos_pow_of_pos k (by decide)
  have hn : 0 < n := Nat.lt_of_lt_of_le hd hlo
  have hd2 : 1024 ^ k < 2 ^ 64 := by
    interval_cases k <;> norm_num
  rw [div_ofInt_ofInt n (1024 ^ k) hn (by omega) hd hd2, nearest53_pow1024 k hk1 hk6]
  obtain ⟨b1, b2, _⟩ := nearest53_bounds n hn
  have hP : 0 < nearest53 n := Nat.lt_of_lt_of_le (Nat.two_pow_pos _) b1
  have hl1 : 10 * k ≤ ilog2 n := le_ilog2_of_le n (10 * k) (by rw [← pow1024]; exact hlo)
  have hl2 : ilog2 n < 10 * (k + 1) :=
    ilog2_lt_of_lt n _ hn (by rw [← pow1024]; exact hhi)
  have hlow : 2 ^ (10 * k) ≤ nearest53 n :=
    Nat.le_trans (Nat.pow_le_pow_right (by decide) hl1) b1
  have hup : nearest53 n < 2 ^ (10 * k + 52) :=
    Nat.lt_of_le_of_lt b2 (Nat.pow_lt_pow_right (by decide) (by omega))
  obtain ⟨m, t, _, hround, hval⟩ :=
    round_div_pow2 (nearest53 n) (10 * k) hP (nearest53_fits n hn) hlow hup
  rw [pow1024 k]
  exact ⟨m, t, hround, hval⟩

theorem padZeros_digit (d : Nat) (h : d < 10) : padZeros 1 (toString d) = toString d := by
  interval_cases d <;> decide

/-- Verb `%.1f` on a non-negative finite value: the tenths `n`, printed as
`n / 10`, a point and the digit `n % 10`. -/
theorem fmtFixed_one (p q : Nat) :
    fmtFixed 1 (F64.finite false p q) =
      toString (rne (p * 10) q / 10) ++ "." ++ toString (rne (p * 10) q % 10) := by
  have h := padZeros_digit (rne (p * 10) q % 10) (Nat.mod_lt _ (by decide))
  simp only [fmtFixed, pow_one, if_false, Nat.one_ne_zero, h, Bool.false_eq_true]
  rfl

/-- What `formatBytes` returns from `1024` on. -/
theorem formatBytes_scaled_eq (b : Int) (k : Nat) (hk1 : 1 ≤ k) (hk6 : k ≤ 6)
    (hlo : 1024 ^ k ≤ b) (hhi : b < 1024 ^ (k + 1)) (h63 : b < 2 ^ 63) :
    ∃ c, unitLetters.get? (k - 1) = some c ∧
      formatBytes b = some (fmtFixed 1 (F64.div (F64.ofInt b) (F64.ofInt (1024 ^ k)))
        ++ " " ++ String.singleton c ++ "iB") := by
  have hb : 1024 ≤ b := by
    interval_cases k <;> norm_num at hlo <;> omega
  obtain ⟨hdiv, hexp⟩ := scaleLoop_final b k hk1 hk6 hlo hhi h63
  obtain ⟨c, hc⟩ : ∃ c, unitLetters.get? (k - 1) = some c := by
    interval_cases k <;> exact ⟨_, rfl⟩
  refine ⟨c, hc, ?_⟩
  have hnot : ¬ (b < unit) := by simp only [unit]; omega
  unfold formatBytes
  simp only [hnot, if_false, hexp, hdiv, byteAt_letters, hc]

/-- Evaluation of `formatBytes` at a concrete input from `1024` on. -/
theorem formatBytes_eval (n k : Nat) (c : Char) (out : String) (hk1 : 1 ≤ k) (hk6 : k ≤ 6)
    (hlo : 1024 ^ k ≤ n) (hhi : n < 1024 ^ (k + 1)) (h63 : n < 2 ^ 63)
    (hc : unitLetters.get? (k - 1) = some c)
    (hout : fmtFixed 1 (F64.finite false (nearest53 n) (1024 ^ k)) ++ " "
      ++ String.singleton c ++ "iB" = out) :
    formatBytes (n : Int) = some out := by
  obtain ⟨c', hc', hf⟩ := formatBytes_scaled_eq (n : Int) k hk1 hk6
    (by exact_mod_cast hlo) (by exact_mod_cast hhi) (by exact_mod_cast h63)
  obtain ⟨m, t, hdiv, hval⟩ := div_pow1024 n k hk1 hk6 hlo hhi h63
  have hcast : ((1024 : Int) ^ k) = ((1024 ^ k : Nat) : Int) := by push_cast; rfl
  rw [hc] at hc'
  cases hc'
  rw [hf, hcast, hdiv, ← hout,
    fmtFixed_congr 1 false m (2 ^ t) (nearest53 n) (1024 ^ k) (Nat.two_pow_pos _)
      (Nat.pos_pow_of_pos k (by decide)) hval]

theorem formatBytes_small (b : Int) (h0 : 0 ≤ b) (h : b < 1024) :
    formatBytes b = some (Nat.repr b.toNat ++ " B") := by
  obtain ⟨n, rfl⟩ : ∃ n : Nat, b = (n : Int) := ⟨b.toNat, by omega⟩
  have hlt : (n : Int) < unit := h
  simp only [formatBytes, hlt, if_true, Int.toNat_ofNat]
  rfl

theorem formatBytes_isSome (b : Int) (h63 : b < 2 ^ 63) : ∃ out, formatBytes b = some out := by
  rcases lt_or_le b 1024 with h | h
  · have hlt : b < unit := h
    simp only [formatBytes, hlt, if_true]
    exact ⟨_, rfl⟩
  · obtain ⟨hr, _⟩ := scaleLoop_reach b _ (Reach.init)
    obtain ⟨j, hj, he, _⟩ := reach_inv b (by omega) h63 _ hr
    obtain ⟨c, hc⟩ : ∃ c, unitLetters.get? j = some c := by
      interval_cases j <;> exact ⟨_, rfl⟩
    have hnot : ¬ (b < unit) := by simp only [unit]; omega
    simp only [formatBytes, hnot, if_false, he, byteAt_letters, hc]
    exact ⟨_, rfl⟩

/-- C1: for every byte count `b` with `0 ≤ b < 1024`, `formatBytes b` is the
decimal rendering of `b` followed by a space and the letter `B`, without a
fractional part; so `0`, `512` and `1023` give `0 B`, `512 B` and `1023 B`. -/
theorem formatBytes_below_unit :
    (∀ b : Int, 0 ≤ b → b < 1024 →
      formatBytes b = some (String.mk (Nat.toDigits 10 b.toNat) ++ " B")) ∧
    formatBytes 0 = some "0 B" ∧ formatBytes 512 = some "512 B" ∧
    formatBytes 1023 = some "1023 B" := by
  refine ⟨fun b h0 h => formatBytes_small b h0 h, ?_, ?_, ?_⟩ <;> decide

/-- C1 at the input `7`: the hypotheses hold and the result is `7 B`. -/
theorem formatBytes_below_unit_witness :
    (0 : Int) ≤ 7 ∧ (7 : Int) < 1024 ∧ formatBytes 7 = some "7 B" :=
  ⟨by decide, by decide,
    (formatBytes_below_unit.1 7 (by decide) (by decide)).trans (by decide)⟩

/-- C2, as the code has it: for every byte count `b ≥ 1024` of 64 bits, with `k` in
`1..6` such that `1024 ^ k ≤ b < 1024 ^ (k + 1)`, the loop of `formatBytes` ends
with `div = 1024 ^ k` and `exp = k - 1`, and the result is the quotient
`float64(b) / float64(1024 ^ k)` printed with exactly one fractional digit (the
tenths `t`, as `t / 10`, a point and the digit `t % 10`), a space, the `k`-th of
the letters `K, M, G, T, P, E` and `iB`. The quotient is the exact value of
`nearest53 b / 1024 ^ k`, where `nearest53 b` is `b` rounded to 53 significant
bits; up to `2 ^ 53` it is `b` itself and the result is the one C2 words. So
`1024` gives `1.0 KiB`, `1536` gives `1.5 KiB` and `1024 ^ k` gives `1.0` with the
`k`-th unit. -/
theorem formatBytes_scaled :
    (∀ (b : Int) (k : Nat), 1 ≤ k → k ≤ 6 → 1024 ^ k ≤ b → b < 1024 ^ (k + 1) → b < 2 ^ 63 →
      (scaleLoop ⟨b.tdiv unit, unit, 0⟩).div = 1024 ^ k ∧
      (scaleLoop ⟨b.tdiv unit, unit, 0⟩).exp = ((k - 1 : Nat) : Int) ∧
      ∃ c m e t,
        unitLetters.get? (k - 1) = some c ∧
        F64.div (F64.ofInt b) (F64.ofInt (1024 ^ k)) = F64.finite false m (2 ^ e) ∧
        m * 1024 ^ k = nearest53 b.toNat * 2 ^ e ∧
        (b ≤ 2 ^ 53 → nearest53 b.toNat = b.toNat) ∧
        t = rne (nearest53 b.toNat * 10) (1024 ^ k) ∧
        fmtFixed 1 (F64.div (F64.ofInt b) (F64.ofInt (1024 ^ k))) =
          toString (t / 10) ++ "." ++ toString (t % 10) ∧
        formatBytes b =
          some (toString (t / 10) ++ "." ++ toString (t % 10) ++ " "
            ++ String.singleton c ++ "iB") ∧
        (b ≤ 2 ^ 53 → formatBytes b = some (formatBytesClaimed b.toNat k c))) ∧
    formatBytes 1024 = some "1.0 KiB" ∧ formatBytes 1536 = some "1.5 KiB" ∧
    formatBytes 1048576 = some "1.0 MiB" ∧ formatBytes 1073741824 = some "1.0 GiB" ∧
    formatBytes 1099511627776 = some "1.0 TiB" ∧ formatBytes 1125899906842624 = some "1.0 PiB" ∧
    formatBytes 1152921504606846976 = some "1.0 EiB" := by
  refine ⟨?_, ?_, ?_, ?_, ?_, ?_, ?_, ?_⟩
  · intro b k hk1 hk6 hlo hhi h63
    obtain ⟨hdiv, hexp⟩ := scaleLoop_final b k hk1 hk6 hlo hhi h63
    refine ⟨hdiv, hexp, ?_⟩
    obtain ⟨c, hc, hf⟩ := formatBytes_scaled_eq b k hk1 hk6 hlo hhi h63
    have hb0 : 0 ≤ b := le_trans (by positivity) hlo
    obtain ⟨n, rfl⟩ : ∃ n : Nat, b = (n : Int) := ⟨b.toNat, by omega⟩
    obtain ⟨m, e, hd, hval⟩ := div_pow1024 n k hk1 hk6 (by exact_mod_cast hlo)
      (by exact_mod_cast hhi) (by exact_mod_cast h63)
    have hcast : ((1024 : Int) ^ k) = ((1024 ^ k : Nat) : Int) := by push_cast; rfl
    have hfmt : fmtFixed 1 (F64.div (F64.ofInt (n : Int)) (F64.ofInt (1024 ^ k))) =
        toString (rne (nearest53 n * 10) (1024 ^ k) / 10) ++ "." ++
          toString (rne (nearest53 n * 10) (1024 ^ k) % 10) := by
      rw [hcast, hd, fmtFixed_congr 1 false m (2 ^ e) (nearest53 n) (1024 ^ k)
        (Nat.two_pow_pos _) (Nat.pos_pow_of_pos k (by decide)) hval, fmtFixed_one]
    refine ⟨c, m, e, _, hc, by rw [hcast]; exact hd, hval, ?_, rfl, hfmt, ?_, ?_⟩
    · intro hle
      exact nearest53_le n (by exact_mod_cast hle)
    · rw [hf, hfmt]
      rfl
    · intro hle
      have hle2 : n ≤ 2 ^ 53 := by exact_mod_cast hle
      rw [hf, hfmt, nearest53_le n hle2]
      simp only [formatBytesClaimed, Int.toNat_ofNat, fmtFixed_one]
  · exact formatBytes_eval 1024 1 'K' _ (by decide) (by decide) (by decide) (by decide)
      (by decide) (by decide) (by decide)
  · exact formatBytes_eval 1536 1 'K' _ (by decide) (by decide) (by decide) (by decide)
      (by decide) (by decide) (by decide)
  · exact formatBytes_eval 1048576 2 'M' _ (by decide) (by decide) (by decide) (by decide)
      (by decide) (by decide) (by decide)
  · exact formatBytes_eval 1073741824 3 'G' _ (by decide) (by decide) (by decide) (by decide)
      (by decide) (by decide) (by decide)
  · exact formatBytes_eval 1099511627776 4 'T' _ (by decide) (by decide) (by decide) (by decide)
      (by decide) (by decide) (by decide)
  · exact formatBytes_eval 1125899906842624 5 'P' _ (by decide) (by decide) (by decide) (by decide)
      (by decide) (by decide) (by decide)
  · exact formatBytes_eval 1152921504606846976 6 'E' _ (by decide) (by decide) (by decide) (by decide)
      (by decide) (by decide) (by decide)

/-- C2 at the input `1536` with `k = 1`: the hypotheses hold, the loop ends with
`div = 1024` and `exp = 0`. -/
theorem formatBytes_scaled_witness :
    (1024 : Int) ^ 1 ≤ 1536 ∧ (1536 : Int) < 1024 ^ (1 + 1) ∧
    (scaleLoop ⟨(1536 : Int).tdiv unit, unit, 0⟩).div = 1024 ^ 1 ∧
    (scaleLoop ⟨(1536 : Int).tdiv unit, unit, 0⟩).exp = ((1 - 1 : Nat) : Int) :=
  ⟨by decide, by decide,
    (formatBytes_scaled.1 1536 1 (by decide) (by decide) (by decide) (by decide)
      (by decide)).1,
    (formatBytes_scaled.1 1536 1 (by decide) (by decide) (by decide) (by decide)
      (by decide)).2.1⟩

/-- C2 fails as stated: `b = 1210567579837189324` lies between `1024 ^ 6` and
`1024 ^ 7` and `b / 1024 ^ 6` is below `1.05`, so that the value printed with one
fractional digit is `1.0`; but `float64(b)` is `1210567579837189376`, whose
quotient by `1024 ^ 6` is above `1.05`, and `formatBytes` returns `1.1 EiB`. -/
theorem formatBytes_scaled_counterexample :
    (1024 : Int) ^ 6 ≤ 1210567579837189324 ∧ (1210567579837189324 : Int) < 2 ^ 63 ∧
    20 * 1210567579837189324 < 21 * 1024 ^ 6 ∧
    formatBytesClaimed 1210567579837189324 6 'E' = "1.0 EiB" ∧
    nearest53 1210567579837189324 = 1210567579837189376 ∧
    formatBytes 1210567579837189324 = some "1.1 EiB" ∧
    formatBytes 1210567579837189324 ≠ some (formatBytesClaimed 1210567579837189324 6 'E') := by
  have h : formatBytes 1210567579837189324 = some "1.1 EiB" :=
    formatBytes_eval 1210567579837189324 6 'E' _ (by decide) (by decide) (by decide) (by decide)
      (by decide) (by decide) (by decide)
  refine ⟨by decide, by decide, by decide, by decide, by decide, h, ?_⟩
  rw [h]
  decide

/-- C3: `formatBytes` is total on every non-negative 64-bit input: it returns a
string, its loop reaches a state in which the loop condition fails, and in every
state the loop goes through the index `exp` lies in `0..5`, so that indexing
`KMGTPE` succeeds, and `div` is at most `2 ^ 60`, so that the product
`div * unit` of the next iteration stays below `2 ^ 63` and is not wrapped. -/
theorem formatBytes_total (b : Int) (h0 : 0 ≤ b) (h63 : b < 2 ^ 63) :
    (∃ out, formatBytes b = some out) ∧
    (Reach b (scaleLoop ⟨b.tdiv unit, unit, 0⟩) ∧
      loopStep (scaleLoop ⟨b.tdiv unit, unit, 0⟩) = none) ∧
    ∀ s, Reach b s →
      0 ≤ s.exp ∧ s.exp ≤ 5 ∧ (∃ c, byteAt "KMGTPE" s.exp = some c) ∧ s.div ≤ 2 ^ 60 ∧
      ∀ t, loopStep s = some t → s.div * unit < 2 ^ 63 ∧ t.div = s.div * unit := by
  refine ⟨formatBytes_isSome b h63, scaleLoop_reach b _ Reach.init, ?_⟩
  intro s hs
  have hinv := reach_inv b h0 h63 s hs
  obtain ⟨j, hj, he, hd, _, _⟩ := hinv
  refine ⟨by omega, by omega, ?_, ?_, ?_⟩
  · rw [he, byteAt_letters]
    interval_cases j <;> exact ⟨_, rfl⟩
  · rw [hd]
    interval_cases j <;> norm_num
  · intro t ht
    exact (loopInv_step b h0 h63 s t (reach_inv b h0 h63 s hs) ht).2

/-- C3 at the largest input `2 ^ 63 - 1`: the hypotheses hold and a string is
returned. -/
theorem formatBytes_total_witness :
    (0 : Int) ≤ 9223372036854775807 ∧ (9223372036854775807 : Int) < 2 ^ 63 ∧
    ∃ out, formatBytes 9223372036854775807 = some out :=
  ⟨by decide, by decide, (formatBytes_total 9223372036854775807 (by decide) (by decide)).1⟩
/-! ## Rate limits -/

theorem ofInt_natCast_round (n : Nat) : F64.ofInt (n : Int) = F64.round false n 1 := by
  unfold F64.ofInt
  have hneg : decide ((n : Int) < 0) = false := by simp
  rw [hneg, Int.natAbs_ofNat]

/-- A natural number up to `2 ^ 53` converts to a fraction of that very value. -/
theorem ofInt_frac (n : Nat) (h0 : 0 < n) (h : n ≤ 2 ^ 53) :
    ∃ q, 0 < q ∧ F64.ofInt (n : Int) = F64.finite false (n * q) q := by
  have h64 : n < 2 ^ 64 := Nat.lt_of_le_of_lt h (by norm_num)
  rw [ofInt_natCast n h0 h64]
  split
  · exact ⟨_, Nat.two_pow_pos _, rfl⟩
  · exact ⟨1, by decide, by rw [nearest53_le n h, Nat.mul_one]⟩

/-- Multiplying a float of integral value `n` by a small integer constant `d` is
the conversion of `n * d`. -/
theorem mul_ofInt_small (n q d : Nat) (hq : 0 < q) (hd : 0 < d) (hd2 : d ≤ 2 ^ 53) :
    F64.mul (F64.finite false (n * q) q) (F64.ofInt (d : Int)) = F64.ofInt ((n * d : Nat) : Int) := by
  obtain ⟨v, hv, hof⟩ := ofInt_frac d hd hd2
  rw [hof, ofInt_natCast_round]
  simp only [F64.mul, Bool.xor_false]
  rw [show n * q * (d * v) = (q * v) * (n * d) by ring,
    show q * v = (q * v) * 1 by ring]
  rw [show q * v * 1 * (n * d) = (q * v) * (n * d) by ring]
  exact round_mul_left false (q * v) (n * d) 1 (Nat.mul_pos hq hv)

/-- Dividing a float of integral value `n * d` by the small integer constant `d`
is the conversion of `n`. -/
theorem div_ofInt_small (n q d : Nat) (hq : 0 < q) (hd : 0 < d) (hd2 : d ≤ 2 ^ 53) :
    F64.div (F64.finite false (n * d * q) q) (F64.ofInt (d : Int)) = F64.ofInt (n : Int) := by
  obtain ⟨v, hv, hof⟩ := ofInt_frac d hd hd2
  rw [hof, ofInt_natCast_round]
  have hne : d * v ≠ 0 := Nat.pos_iff_ne_zero.mp (Nat.mul_pos hd hv)
  simp only [F64.div, hne, if_false, Bool.xor_false]
  rw [show n * d * q * v = (q * d * v) * n by ring,
    show q * (d * v) = (q * d * v) * 1 by ring]
  exact round_mul_left false (q * d * v) n 1 (Nat.mul_pos (Nat.mul_pos hq hd) hv)

/-- For a whole number `n` of Mbps the limit is the conversion of `n * 131072`. -/
theorem rateLimiter_whole (n q : Nat) (hn : 0 < n) (hn2 : n ≤ 2 ^ 33) (hq : 0 < q) :
    (rateLimiter (F64.finite false (n * q) q)).limit = F64.ofInt ((n * 131072 : Nat) : Int) := by
  unfold rateLimiter
  simp only
  rw [show ((1024 : Int)) = ((1024 : Nat) : Int) by rfl, show ((8 : Int)) = ((8 : Nat) : Int) by rfl]
  rw [mul_ofInt_small n q 1024 hq (by decide) (by norm_num)]
  have h1 : n * 1024 ≤ 2 ^ 53 := by
    have : (2:Nat) ^ 33 * 1024 ≤ 2 ^ 53 := by norm_num
    exact Nat.le_trans (Nat.mul_le_mul_right _ hn2) this
  obtain ⟨q1, hq1, hof1⟩ := ofInt_frac (n * 1024) (Nat.mul_pos hn (by decide)) h1
  rw [hof1, mul_ofInt_small (n * 1024) q1 1024 hq1 (by decide) (by norm_num)]
  have h2 : n * 1024 * 1024 ≤ 2 ^ 53 := by
    have : (2:Nat) ^ 33 * 1024 * 1024 ≤ 2 ^ 53 := by norm_num
    exact Nat.le_trans (Nat.mul_le_mul_right _ (Nat.mul_le_mul_right _ hn2)) this
  obtain ⟨q2, hq2, hof2⟩ := ofInt_frac (n * 1024 * 1024)
    (Nat.mul_pos (Nat.mul_pos hn (by decide)) (by decide)) h2
  rw [hof2, show n * 1024 * 1024 * q2 = n * 131072 * 8 * q2 by ring]
  exact div_ofInt_small (n * 131072) q2 8 hq2 (by decide) (by norm_num)

theorem baseConfig_download (fl : Flags) :
    (baseConfig fl).1.DownloadRateLimiter =
      if F64.gt fl.downloadRateMbps F64.zero then
        Setting.assigned (rateLimiter fl.downloadRateMbps)
      else Setting.untouched := by
  unfold baseConfig
  by_cases h1 : F64.gt fl.downloadRateMbps F64.zero = true <;>
    by_cases h2 : F64.gt fl.uploadRateMbps F64.zero = true <;> simp [h1, h2]

theorem baseConfig_upload (fl : Flags) :
    (baseConfig fl).1.UploadRateLimiter =
      if F64.gt fl.uploadRateMbps F64.zero then
        Setting.assigned (rateLimiter fl.uploadRateMbps)
      else Setting.untouched := by
  unfold baseConfig
  by_cases h1 : F64.gt fl.downloadRateMbps F64.zero = true <;>
    by_cases h2 : F64.gt fl.uploadRateMbps F64.zero = true <;> simp [h1, h2]

theorem setupProxy_limiters (env : Env) (s : String) (cfg cfg1 : ClientConfig)
    (logs : List Event) (h : setupProxy env s cfg = Except.ok (cfg1, logs)) :
    cfg1.DownloadRateLimiter = cfg.DownloadRateLimiter ∧
    cfg1.UploadRateLimiter = cfg.UploadRateLimiter ∧
    cfg1.DataDir = cfg.DataDir := by
  unfold setupProxy at h
  split at h
  · cases h; exact ⟨rfl, rfl, rfl⟩
  · split at h
    · cases h
    · split at h
      · cases h; exact ⟨rfl, rfl, rfl⟩
      · split at h
        · split at h
          · cases h
          · cases h; exact ⟨rfl, rfl, rfl⟩
        · cases h

theorem baseConfig_logs (fl : Flags) : ∀ e ∈ (baseConfig fl).2, e.isLog = true := by
  unfold baseConfig
  by_cases h1 : F64.gt fl.downloadRateMbps F64.zero = true <;>
    by_cases h2 : F64.gt fl.uploadRateMbps F64.zero = true <;>
    by_cases h3 : fl.enableSeeding = true <;>
    by_cases h4 : F64.gt fl.seedRatio F64.zero = true <;>
    simp [h1, h2, h3, h4, Event.isLog]

theorem setupProxy_logs (env : Env) (s : String) (cfg cfg1 : ClientConfig)
    (logs : List Event) (h : setupProxy env s cfg = Except.ok (cfg1, logs)) :
    ∀ e ∈ logs, e.isLog = true := by
  unfold setupProxy at h
  split at h
  · cases h; simp
  · split at h
    · cases h
    · split at h
      · cases h; simp [Event.isLog]
      · split at h
        · split at h
          · cases h
          · cases h; simp [Event.isLog]
        · cases h

/-- The shape of the trace of the set-up: the log lines, then either a fatal
exit, or `os.MkdirAll` followed by a fatal exit, by `torrent.NewClient` and a
fatal exit, or by `torrent.NewClient` alone. -/
theorem mainSetup_shape (env : Env) (fl : Flags) :
    (∃ logs reason, (∀ e ∈ logs, e.isLog = true) ∧
      mainSetup env fl = logs ++ [Event.fatal reason] ∧
      (fl.args.length < 1 ∨ setupProxy env fl.proxyURL (baseConfig fl).1 = Except.error reason)) ∨
    (∃ logs logs1 cfg tail, (∀ e ∈ logs, e.isLog = true) ∧
      setupProxy env fl.proxyURL (baseConfig fl).1 = Except.ok (cfg, logs1) ∧
      mainSetup env fl = logs ++ Event.mkdirAll cfg.DataDir :: tail ∧
      ((∃ err, tail = [Event.fatal (Fatal.mkdir cfg.DataDir err)]) ∨
        (∃ err, tail = [Event.newClient cfg, Event.fatal (Fatal.newClient err)]) ∨
        tail = [Event.newClient cfg])) := by
  unfold mainSetup
  split
  · exact Or.inl ⟨[], Fatal.usage, by simp, rfl, Or.inl (by assumption)⟩
  · split
    · rename_i reason hp
      exact Or.inl ⟨_, reason, baseConfig_logs fl, rfl, Or.inr hp⟩
    · rename_i cfg logs hp
      have hl : ∀ e ∈ (baseConfig fl).2 ++ logs, e.isLog = true := by
        intro e he
        rcases List.mem_append.mp he with he | he
        · exact baseConfig_logs fl e he
        · exact setupProxy_logs env _ _ _ _ hp e he
      right
      split
      · rename_i err hm
        exact ⟨_, logs, cfg, [Event.fatal (Fatal.mkdir cfg.DataDir err)], hl, hp, by simp,
          Or.inl ⟨err, rfl⟩⟩
      · split
        · rename_i err hc
          exact ⟨_, logs, cfg, [Event.newClient cfg, Event.fatal (Fatal.newClient err)], hl, hp,
            by simp, Or.inr (Or.inl ⟨err, rfl⟩)⟩
        · exact ⟨_, logs, cfg, [Event.newClient cfg], hl, hp, by simp, Or.inr (Or.inr rfl)⟩
theorem mainSetup_newClient (env : Env) (fl : Flags) (cfg : ClientConfig)
    (h : Event.newClient cfg ∈ mainSetup env fl) :
    ∃ logs, setupProxy env fl.proxyURL (baseConfig fl).1 = Except.ok (cfg, logs) := by
  rcases mainSetup_shape env fl with ⟨logs, reason, hl, heq, _⟩ | ⟨logs, logs1, c, tail, hl, hp, heq, ht⟩
  · rw [heq] at h
    rcases List.mem_append.mp h with h1 | h1
    · have := hl _ h1
      simp [Event.isLog] at this
    · simp at h1
  · rw [heq] at h
    rcases List.mem_append.mp h with h1 | h1
    · have := hl _ h1
      simp [Event.isLog] at this
    · rcases ht with ⟨err, rfl⟩ | ⟨err, rfl⟩ | rfl <;> simp at h1 <;> subst h1 <;> exact ⟨logs1, hp⟩

theorem mainSetup_proxy_fatal (env : Env) (fl : Flags) (reason : Fatal)
    (h : setupProxy env fl.proxyURL (baseConfig fl).1 = Except.error reason) :
    (∀ dir, Event.mkdirAll dir ∉ mainSetup env fl) ∧
    (∀ cfg, Event.newClient cfg ∉ mainSetup env fl) ∧
    (∃ r, (mainSetup env fl).getLast? = some (Event.fatal r)) := by
  rcases mainSetup_shape env fl with ⟨logs, r, hl, heq, _⟩ | ⟨logs, logs1, c, tail, hl, hp, heq, ht⟩
  · refine ⟨?_, ?_, r, by rw [heq]; simp⟩
    · intro dir hm
      rw [heq] at hm
      rcases List.mem_append.mp hm with h1 | h1
      · have := hl _ h1
        simp [Event.isLog] at this
      · simp at h1
    · intro cfg hm
      rw [heq] at hm
      rcases List.mem_append.mp hm with h1 | h1
      · have := hl _ h1
        simp [Event.isLog] at this
      · simp at h1
  · rw [h] at hp
    cases hp

theorem gt_zero_whole (n q : Nat) (hn : 0 < n) (hq : 0 < q) :
    F64.gt (F64.finite false (n * q) q) F64.zero = true := by
  simp only [F64.gt, F64.zero, F64.scaled, decide_eq_true_eq, if_false, Bool.false_eq_true]
  have := Nat.mul_pos hn hq
  omega

theorem gt_zero_zero (neg : Bool) (q : Nat) :
    F64.gt (F64.finite neg 0 q) F64.zero = false := by
  cases neg <;> simp [F64.gt, F64.zero, F64.scaled]

/-- C4: for each direction independently, the configuration gets a rate limiter
if and only if the rate in Mbps of that direction is positive; the limiter then
has the rate `mbps * 1024 * 1024 / 8` (computed in `float64`) and the burst
`524288`, and otherwise the limiter of the library default is left in place; a
rate of `0` installs none; a whole number `n` of Mbps gives exactly
`n * 131072` bytes per second, `655360` for `5`; the limiter of one direction
depends on the rate of that direction only, and the configuration handed to
`torrent.NewClient` carries both limiters unchanged. -/
theorem rate_limit_builder (env : Env) (fl : Flags) :
    ((∃ l, (baseConfig fl).1.DownloadRateLimiter = Setting.assigned l) ↔
      F64.gt fl.downloadRateMbps F64.zero = true) ∧
    ((∃ l, (baseConfig fl).1.UploadRateLimiter = Setting.assigned l) ↔
      F64.gt fl.uploadRateMbps F64.zero = true) ∧
    (F64.gt fl.downloadRateMbps F64.zero = true →
      (baseConfig fl).1.DownloadRateLimiter = Setting.assigned
        ⟨F64.div (F64.mul (F64.mul fl.downloadRateMbps (F64.ofInt 1024)) (F64.ofInt 1024))
          (F64.ofInt 8), 524288⟩) ∧
    (F64.gt fl.uploadRateMbps F64.zero = true →
      (baseConfig fl).1.UploadRateLimiter = Setting.assigned
        ⟨F64.div (F64.mul (F64.mul fl.uploadRateMbps (F64.ofInt 1024)) (F64.ofInt 1024))
          (F64.ofInt 8), 524288⟩) ∧
    (F64.gt fl.downloadRateMbps F64.zero = false →
      (baseConfig fl).1.DownloadRateLimiter = Setting.untouched) ∧
    (F64.gt fl.uploadRateMbps F64.zero = false →
      (baseConfig fl).1.UploadRateLimiter = Setting.untouched) ∧
    (∀ neg q, fl.downloadRateMbps = F64.finite neg 0 q →
      (baseConfig fl).1.DownloadRateLimiter = Setting.untouched) ∧
    (∀ neg q, fl.uploadRateMbps = F64.finite neg 0 q →
      (baseConfig fl).1.UploadRateLimiter = Setting.untouched) ∧
    (∀ n q, 0 < n → n ≤ 2 ^ 33 → 0 < q → fl.downloadRateMbps = F64.finite false (n * q) q →
      (baseConfig fl).1.DownloadRateLimiter =
        Setting.assigned ⟨F64.ofInt ((n * 131072 : Nat) : Int), 524288⟩) ∧
    (∀ n q, 0 < n → n ≤ 2 ^ 33 → 0 < q → fl.uploadRateMbps = F64.finite false (n * q) q →
      (baseConfig fl).1.UploadRateLimiter =
        Setting.assigned ⟨F64.ofInt ((n * 131072 : Nat) : Int), 524288⟩) ∧
    (∀ q, 0 < q → rateLimiter (F64.finite false (5 * q) q) = ⟨F64.ofInt 655360, 524288⟩) ∧
    F64.ofInt 655360 = F64.finite false (655360 * 2 ^ 33) (2 ^ 33) ∧
    (∀ fl2 : Flags, fl2.downloadRateMbps = fl.downloadRateMbps →
      (baseConfig fl2).1.DownloadRateLimiter = (baseConfig fl).1.DownloadRateLimiter) ∧
    (∀ fl2 : Flags, fl2.uploadRateMbps = fl.uploadRateMbps →
      (baseConfig fl2).1.UploadRateLimiter = (baseConfig fl).1.UploadRateLimiter) ∧
    (∀ cfg, Event.newClient cfg ∈ mainSetup env fl →
      cfg.DownloadRateLimiter = (baseConfig fl).1.DownloadRateLimiter ∧
      cfg.UploadRateLimiter = (baseConfig fl).1.UploadRateLimiter) := by
  have hd := baseConfig_download fl
  have hu := baseConfig_upload fl
  have hwhole : ∀ n q, 0 < n → n ≤ 2 ^ 33 → 0 < q →
      rateLimiter (F64.finite false (n * q) q) =
        ⟨F64.ofInt ((n * 131072 : Nat) : Int), 524288⟩ := by
    intro n q hn hn2 hq
    have h := rateLimiter_whole n q hn hn2 hq
    have hb : (rateLimiter (F64.finite false (n * q) q)).burst = 524288 := by
      simp [rateLimiter]
    cases hr : rateLimiter (F64.finite false (n * q) q) with
    | mk limit burst =>
      rw [hr] at h hb
      simp only at h hb
      rw [h, hb]
  refine ⟨?_, ?_, ?_, ?_, ?_, ?_, ?_, ?_, ?_, ?_, ?_, ?_, ?_, ?_, ?_⟩
  · rw [hd]
    by_cases h : F64.gt fl.downloadRateMbps F64.zero = true <;> simp [h]
  · rw [hu]
    by_cases h : F64.gt fl.uploadRateMbps F64.zero = true <;> simp [h]
  · intro h
    rw [hd]; simp [h, rateLimiter]
  · intro h
    rw [hu]; simp [h, rateLimiter]
  · intro h
    rw [hd]; simp [h]
  · intro h
    rw [hu]; simp [h]
  · intro neg q h
    rw [hd, h, gt_zero_zero]; simp
  · intro neg q h
    rw [hu, h, gt_zero_zero]; simp
  · intro n q hn hn2 hq h
    rw [hd, h, gt_zero_whole n q hn hq, if_pos rfl, hwhole n q hn hn2 hq]
  · intro n q hn hn2 hq h
    rw [hu, h, gt_zero_whole n q hn hq, if_pos rfl, hwhole n q hn hn2 hq]
  · intro q hq
    exact hwhole 5 q (by decide) (by norm_num) hq
  · decide
  · intro fl2 h
    rw [hd, baseConfig_download fl2, h]
  · intro fl2 h
    rw [hu, baseConfig_upload fl2, h]
  · intro cfg hc
    obtain ⟨logs, hp⟩ := mainSetup_newClient env fl cfg hc
    obtain ⟨h1, h2, _⟩ := setupProxy_limiters env _ _ _ _ hp
    exact ⟨h1, h2⟩

/-- C4 at the flags `-download-rate=5` and `-upload-rate=0`: the download limiter
is installed with the rate `655360`, the upload limiter is not. -/
theorem rate_limit_builder_witness :
    rateLimiter (F64.finite false (5 * 1) 1) = ⟨F64.ofInt 655360, 524288⟩ ∧
    (baseConfig ⟨50, "./downloads", F64.finite false (5 * 1) 1, F64.finite false 0 1,
      F64.zero, false, "", ["magnet:?xt=urn:btih:testmagnetlink"]⟩).1.UploadRateLimiter
        = Setting.untouched := by
  have h := rate_limit_builder
    ⟨fun _ => Except.error "no parser", fun _ => none, fun _ => none, fun _ => none⟩
    ⟨50, "./downloads", F64.finite false (5 * 1) 1, F64.finite false 0 1,
      F64.zero, false, "", ["magnet:?xt=urn:btih:testmagnetlink"]⟩
  exact ⟨h.2.2.2.2.2.2.2.2.2.2.1 1 (by decide), h.2.2.2.2.2.2.2.1 false 1 rfl⟩

/-! ## Proxy -/

theorem setupProxy_ok_cases (env : Env) (s : String) (cfg cfg1 : ClientConfig)
    (logs : List Event) (h : setupProxy env s cfg = Except.ok (cfg1, logs)) :
    (s = "" ∧ cfg1 = cfg) ∨
    (∃ u, s ≠ "" ∧ env.urlParse s = Except.ok u ∧ (u.scheme = "http" ∨ u.scheme = "https") ∧
      cfg1 = { cfg with HTTPProxy := Setting.assigned u }) ∨
    (∃ u, s ≠ "" ∧ env.urlParse s = Except.ok u ∧ u.scheme = "socks5" ∧
      cfg1 = { cfg with HTTPDialContext := Setting.assigned u }) := by
  unfold setupProxy at h
  split at h
  · rename_i hs
    cases h; exact Or.inl ⟨hs, rfl⟩
  · rename_i hs
    split at h
    · cases h
    · rename_i u hp
      split at h
      · rename_i hsch
        cases h; exact Or.inr (Or.inl ⟨u, hs, hp, hsch, rfl⟩)
      · split at h
        · rename_i hsch
          split at h
          · cases h
          · cases h; exact Or.inr (Or.inr ⟨u, hs, hp, hsch, rfl⟩)
        · cases h

theorem setupProxy_fields (env : Env) (s : String) (cfg cfg1 cfg2 cfg3 : ClientConfig)
    (logs logs2 : List Event) (h : setupProxy env s cfg = Except.ok (cfg1, logs))
    (h2 : setupProxy env s cfg2 = Except.ok (cfg3, logs2))
    (e1 : cfg.HTTPProxy = cfg2.HTTPProxy) (e2 : cfg.HTTPDialContext = cfg2.HTTPDialContext) :
    cfg1.HTTPProxy = cfg3.HTTPProxy ∧ cfg1.HTTPDialContext = cfg3.HTTPDialContext := by
  rcases setupProxy_ok_cases env s cfg cfg1 logs h with
    ⟨a1, rfl⟩ | ⟨u, a1, a2, a3, rfl⟩ | ⟨u, a1, a2, a3, rfl⟩ <;>
  rcases setupProxy_ok_cases env s cfg2 cfg3 logs2 h2 with
    ⟨b1, rfl⟩ | ⟨v, b1, b2, b3, rfl⟩ | ⟨v, b1, b2, b3, rfl⟩
  · exact ⟨e1, e2⟩
  · exact absurd a1 b1
  · exact absurd a1 b1
  · exact absurd b1 a1
  · rw [a2] at b2; cases b2; exact ⟨rfl, e2⟩
  · rw [a2] at b2; cases b2
    rcases a3 with a3 | a3 <;> rw [a3] at b3 <;> exact absurd b3 (by decide)
  · exact absurd b1 a1
  · rw [a2] at b2; cases b2
    rcases b3 with b3 | b3 <;> rw [b3] at a3 <;> exact absurd a3 (by decide)
  · rw [a2] at b2; cases b2; exact ⟨e1, rfl⟩

theorem baseConfig_proxy (fl : Flags) :
    (baseConfig fl).1.HTTPProxy = Setting.untouched ∧
    (baseConfig fl).1.HTTPDialContext = Setting.untouched := by
  unfold baseConfig
  by_cases h1 : F64.gt fl.downloadRateMbps F64.zero = true <;>
    by_cases h2 : F64.gt fl.uploadRateMbps F64.zero = true <;> simp [h1, h2]

theorem setupProxy_rejects (env : Env) (s : String) (cfg : ClientConfig) (hs : s ≠ "")
    (h : (∃ err, env.urlParse s = Except.error err) ∨
      (∃ u, env.urlParse s = Except.ok u ∧ u.scheme ≠ "http" ∧ u.scheme ≠ "https" ∧
        u.scheme ≠ "socks5")) :
    ∃ reason, setupProxy env s cfg = Except.error reason := by
  unfold setupProxy
  rcases h with ⟨err, he⟩ | ⟨u, hu, n1, n2, n3⟩
  · simp [hs, he]
  · simp [hs, hu, n1, n2, n3]

theorem not_started_of_no_client (trace : List Event)
    (h : ∀ cfg, Event.newClient cfg ∉ trace) : ¬ sessionStarted trace := by
  rintro ⟨⟨cfg, hc⟩, _⟩
  exact h cfg hc

/-- C5: the transport policy is decided by the proxy string alone. An empty
string leaves the HTTP proxy setting and the HTTP dial hook as they are; a
string that parses with the scheme `http` or `https` assigns the HTTP proxy
setting only; a string with the scheme `socks5` whose dialer is constructed
assigns the dial hook only; and for a non-empty string that does not parse or
has any other scheme the set-up ends in a fatal exit with neither the call of
`os.MkdirAll` nor that of `torrent.NewClient` made, so that the session is not
started. -/
theorem transport_policy (env : Env) (fl : Flags) :
    (fl.proxyURL = "" → ∀ cfg, setupProxy env fl.proxyURL cfg = Except.ok (cfg, [])) ∧
    (∀ u, fl.proxyURL ≠ "" → env.urlParse fl.proxyURL = Except.ok u →
      (u.scheme = "http" ∨ u.scheme = "https") →
      ∀ cfg, ∃ cfg1 logs, setupProxy env fl.proxyURL cfg = Except.ok (cfg1, logs) ∧
        cfg1 = { cfg with HTTPProxy := Setting.assigned u } ∧
        cfg1.HTTPDialContext = cfg.HTTPDialContext) ∧
    (∀ u, fl.proxyURL ≠ "" → env.urlParse fl.proxyURL = Except.ok u → u.scheme = "socks5" →
      env.proxyFromURL u = none →
      ∀ cfg, ∃ cfg1 logs, setupProxy env fl.proxyURL cfg = Except.ok (cfg1, logs) ∧
        cfg1 = { cfg with HTTPDialContext := Setting.assigned u } ∧
        cfg1.HTTPProxy = cfg.HTTPProxy) ∧
    (fl.proxyURL ≠ "" →
      ((∃ err, env.urlParse fl.proxyURL = Except.error err) ∨
        (∃ u, env.urlParse fl.proxyURL = Except.ok u ∧ u.scheme ≠ "http" ∧
          u.scheme ≠ "https" ∧ u.scheme ≠ "socks5")) →
      (∀ dir, Event.mkdirAll dir ∉ mainSetup env fl) ∧
      (∀ cfg, Event.newClient cfg ∉ mainSetup env fl) ∧
      (∃ reason, (mainSetup env fl).getLast? = some (Event.fatal reason)) ∧
      ¬ sessionStarted (mainSetup env fl)) ∧
    (∀ cfg, Event.newClient cfg ∈ mainSetup env fl →
      ∃ cfg0 logs, setupProxy env fl.proxyURL cfg0 = Except.ok (cfg, logs) ∧
        cfg0.HTTPProxy = Setting.untouched ∧ cfg0.HTTPDialContext = Setting.untouched) ∧
    (∀ (fl2 : Flags) (cfg cfg2 : ClientConfig), fl2.proxyURL = fl.proxyURL →
      Event.newClient cfg ∈ mainSetup env fl → Event.newClient cfg2 ∈ mainSetup env fl2 →
      cfg.HTTPProxy = cfg2.HTTPProxy ∧ cfg.HTTPDialContext = cfg2.HTTPDialContext) := by
  refine ⟨?_, ?_, ?_, ?_, ?_, ?_⟩
  · intro h cfg
    simp [setupProxy, h]
  · intro u hs hu hsch cfg
    refine ⟨_, [Event.logHTTPProxy u.host], ?_, rfl, rfl⟩
    simp [setupProxy, hs, hu, hsch]
  · intro u hs hu hsch hd cfg
    refine ⟨_, [Event.logSocksProxy u.host], ?_, rfl, rfl⟩
    have n1 : ¬ (u.scheme = "http" ∨ u.scheme = "https") := by
      rw [hsch]; decide
    unfold setupProxy
    rw [if_neg hs]
    simp only [hu]
    rw [if_neg n1, if_pos hsch]
    simp only [hd]
  · intro hs h
    obtain ⟨reason, hr⟩ := setupProxy_rejects env fl.proxyURL (baseConfig fl).1 hs h
    obtain ⟨a, b, c⟩ := mainSetup_proxy_fatal env fl reason hr
    exact ⟨a, b, c, not_started_of_no_client _ b⟩
  · intro cfg hc
    obtain ⟨logs, hp⟩ := mainSetup_newClient env fl cfg hc
    exact ⟨_, logs, hp, (baseConfig_proxy fl).1, (baseConfig_proxy fl).2⟩
  · intro fl2 cfg cfg2 he hc hc2
    obtain ⟨logs, hp⟩ := mainSetup_newClient env fl cfg hc
    obtain ⟨logs2, hp2⟩ := mainSetup_newClient env fl2 cfg2 hc2
    rw [he] at hp2
    exact setupProxy_fields env fl.proxyURL _ _ _ _ _ _ hp hp2
      (by rw [(baseConfig_proxy fl).1, (baseConfig_proxy fl2).1])
      (by rw [(baseConfig_proxy fl).2, (baseConfig_proxy fl2).2])

/-- C5 at the proxy string `ftp://host`, parsed with the scheme `ftp`: the
set-up calls neither `os.MkdirAll` nor `torrent.NewClient`. -/
theorem transport_policy_witness :
    ("ftp://host" ≠ "") ∧
    (∀ cfg, Event.newClient cfg ∉ mainSetup
      ⟨fun s => if s = "ftp://host" then Except.ok ⟨"ftp", "host"⟩
        else Except.error "missing protocol scheme",
        fun _ => none, fun _ => none, fun _ => none⟩
      ⟨50, "./downloads", F64.zero, F64.zero, F64.zero, false, "ftp://host", ["x.torrent"]⟩) :=
  ⟨by decide,
    ((transport_policy
      ⟨fun s => if s = "ftp://host" then Except.ok ⟨"ftp", "host"⟩
        else Except.error "missing protocol scheme",
        fun _ => none, fun _ => none, fun _ => none⟩
      ⟨50, "./downloads", F64.zero, F64.zero, F64.zero, false, "ftp://host", ["x.torrent"]⟩).2.2.2.1
      (by decide) (Or.inr ⟨⟨"ftp", "host"⟩, by simp, by decide, by decide, by decide⟩)).2.1⟩
/-! ## The monitor -/

/-- The variables of the monitor after a pass: the baseline is written, together
with `seedingStarted`, exactly when the download is complete, seeding is enabled
and has not started before. -/
theorem tick_state (es : Bool) (sr : F64) (st : MonState) (o : Obs) (r : TickResult)
    (h : tick es sr st o = some r) :
    r.state =
      if downloadComplete o && (!st.seedingStarted && es) then
        ⟨o.bytesCompleted, o.bytesWritten, true⟩
      else ⟨st.initialBytesCompleted, o.bytesWritten, st.seedingStarted⟩ := by
  unfold tick at h
  by_cases hc : downloadComplete o = true
  · simp only [hc, if_true, Bool.true_and] at h ⊢
    simp only [tickComplete] at h
    by_cases hs : (!st.seedingStarted && es) = true
    · simp only [hs, if_true] at h ⊢
      repeat' split at h
      all_goals first | (cases h; rfl) | (cases h)
    · simp only [hs, if_false, Bool.false_eq_true] at h ⊢
      repeat' split at h
      all_goals first | (cases h; rfl) | (cases h)
  · simp only [hc, if_false, Bool.false_and, Bool.false_eq_true] at h ⊢
    simp only [tickProgress] at h
    repeat' split at h
    all_goals first | (cases h; rfl) | (cases h)
theorem tick_not_complete_sleeps (es : Bool) (sr : F64) (st : MonState) (o : Obs)
    (r : TickResult) (hc : downloadComplete o = false) (h : tick es sr st o = some r) :
    ∃ secs, r.next = Control.sleep secs := by
  unfold tick at h
  simp only [hc, if_false, Bool.false_eq_true] at h
  simp only [tickProgress] at h
  repeat' split at h
  all_goals first | (cases h; exact ⟨_, rfl⟩) | (cases h)

theorem step_state (es : Bool) (sr : F64) (m m1 : Monitor) (o : Obs)
    (h : Monitor.step es sr m o = some m1) :
    m1.state =
      if m.returned then m.state
      else if downloadComplete o && (!m.state.seedingStarted && es) then
        ⟨o.bytesCompleted, o.bytesWritten, true⟩
      else ⟨m.state.initialBytesCompleted, o.bytesWritten, m.state.seedingStarted⟩ := by
  unfold Monitor.step at h
  split at h
  · rename_i hr
    cases h
    simp [hr]
  · rename_i hr
    simp only [hr, if_false, Bool.false_eq_true]
    split at h
    · cases h
    · rename_i r ht
      have hs := tick_state es sr m.state o r ht
      split at h <;> (cases h; exact hs)

theorem run_append (es : Bool) (sr : F64) (a b : List Obs) :
    ∀ m, Monitor.run es sr m (a ++ b) =
      (Monitor.run es sr m a).bind (fun m1 => Monitor.run es sr m1 b) := by
  induction a with
  | nil => intro m; rfl
  | cons o os ih =>
    intro m
    simp only [List.cons_append, Monitor.run]
    cases Monitor.step es sr m o with
    | none => rfl
    | some m1 => exact ih m1

theorem step_keeps (es : Bool) (sr : F64) (m m1 : Monitor) (o : Obs)
    (h : Monitor.step es sr m o = some m1) (hs : m.state.seedingStarted = true) :
    m1.state.seedingStarted = true ∧
    m1.state.initialBytesCompleted = m.state.initialBytesCompleted := by
  rw [step_state es sr m m1 o h]
  by_cases hr : m.returned = true
  · simp [hr, hs]
  · simp [hr, hs]

theorem run_keeps (es : Bool) (sr : F64) (obs : List Obs) :
    ∀ m m1, Monitor.run es sr m obs = some m1 → m.state.seedingStarted = true →
      m1.state.seedingStarted = true ∧
      m1.state.initialBytesCompleted = m.state.initialBytesCompleted := by
  induction obs with
  | nil =>
    intro m m1 h hs
    simp only [Monitor.run, Option.some.injEq] at h
    subst h
    exact ⟨hs, rfl⟩
  | cons o os ih =>
    intro m m1 h hs
    simp only [Monitor.run] at h
    split at h
    · cases h
    · rename_i m2 hstep
      obtain ⟨k1, k2⟩ := step_keeps es sr m m2 o hstep hs
      obtain ⟨k3, k4⟩ := ih m2 m1 h k1
      exact ⟨k3, by rw [k4, k2]⟩

theorem step_not_complete (es : Bool) (sr : F64) (m m1 : Monitor) (o : Obs)
    (h : Monitor.step es sr m o = some m1) (hc : downloadComplete o = false) :
    m1.returned = m.returned ∧ m1.state.seedingStarted = m.state.seedingStarted ∧
    m1.state.initialBytesCompleted = m.state.initialBytesCompleted := by
  have hs := step_state es sr m m1 o h
  refine ⟨?_, ?_, ?_⟩
  · unfold Monitor.step at h
    split at h
    · cases h; rfl
    · rename_i hr
      split at h
      · cases h
      · rename_i r ht
        obtain ⟨secs, hn⟩ := tick_not_complete_sleeps es sr m.state o r hc ht
        rw [hn] at h
        simp only [Option.some.injEq] at h
        subst h
        simpa using hr
  · rw [hs]; by_cases hr : m.returned = true <;> simp [hr, hc]
  · rw [hs]; by_cases hr : m.returned = true <;> simp [hr, hc]

theorem run_not_complete (es : Bool) (sr : F64) (obs : List Obs) :
    ∀ m m1, Monitor.run es sr m obs = some m1 → (∀ x ∈ obs, downloadComplete x = false) →
      m1.returned = m.returned ∧ m1.state.seedingStarted = m.state.seedingStarted ∧
      m1.state.initialBytesCompleted = m.state.initialBytesCompleted := by
  induction obs with
  | nil =>
    intro m m1 h _
    simp only [Monitor.run, Option.some.injEq] at h
    subst h
    exact ⟨rfl, rfl, rfl⟩
  | cons o os ih =>
    intro m m1 h hall
    simp only [Monitor.run] at h
    split at h
    · cases h
    · rename_i m2 hstep
      obtain ⟨a1, a2, a3⟩ := step_not_complete es sr m m2 o hstep
        (hall o (List.mem_cons_self _ _))
      obtain ⟨b1, b2, b3⟩ := ih m2 m1 h (fun x hx => hall x (List.mem_cons_of_mem _ hx))
      exact ⟨by rw [b1, a1], by rw [b2, a2], by rw [b3, a3]⟩

theorem run_disabled (sr : F64) (obs : List Obs) :
    ∀ m m1, Monitor.run false sr m obs = some m1 →
      m1.state.seedingStarted = m.state.seedingStarted ∧
      m1.state.initialBytesCompleted = m.state.initialBytesCompleted := by
  induction obs with
  | nil =>
    intro m m1 h
    simp only [Monitor.run, Option.some.injEq] at h
    subst h
    exact ⟨rfl, rfl⟩
  | cons o os ih =>
    intro m m1 h
    simp only [Monitor.run] at h
    split at h
    · cases h
    · rename_i m2 hstep
      have hs := step_state false sr m m2 o hstep
      obtain ⟨b2, b3⟩ := ih m2 m1 h
      rw [b2, b3, hs]
      by_cases hr : m.returned = true <;> simp [hr]

/-- A pass of the monitor loop does not panic on observations of 64 bits. -/
theorem tick_total (es : Bool) (sr : F64) (st : MonState) (o : Obs) (h : o.inRange) :
    ∃ r, tick es sr st o = some r := by
  obtain ⟨r1, r2, r3, _⟩ := h
  obtain ⟨d, hd⟩ := formatBytes_isSome o.bytesCompleted r1
  obtain ⟨t, ht⟩ := formatBytes_isSome o.length r2
  obtain ⟨u, hu⟩ := formatBytes_isSome o.bytesWritten r3
  unfold tick
  split
  · by_cases hs : (!st.seedingStarted && es) = true
    · simp only [tickComplete, hs, if_true, hu]
      repeat' split
      all_goals exact ⟨_, rfl⟩
    · simp only [tickComplete, hs, if_false, Bool.false_eq_true, hu]
      repeat' split
      all_goals exact ⟨_, rfl⟩
  · simp only [tickProgress, hd, ht, hu]
    repeat' split
    all_goals exact ⟨_, rfl⟩

theorem step_total (es : Bool) (sr : F64) (m : Monitor) (o : Obs) (h : o.inRange) :
    ∃ m1, Monitor.step es sr m o = some m1 := by
  obtain ⟨r, hr⟩ := tick_total es sr m.state o h
  unfold Monitor.step
  split
  · exact ⟨_, rfl⟩
  · simp only [hr]
    split
    · exact ⟨_, rfl⟩
    · exact ⟨_, rfl⟩
    · exact ⟨_, rfl⟩

theorem run_total (es : Bool) (sr : F64) (obs : List Obs) :
    ∀ m, (∀ o ∈ obs, o.inRange) → ∃ m1, Monitor.run es sr m obs = some m1 := by
  induction obs with
  | nil => intro m _; exact ⟨m, rfl⟩
  | cons o os ih =>
    intro m hall
    obtain ⟨m1, h1⟩ := step_total es sr m o (hall o (List.mem_cons_self _ _))
    obtain ⟨m2, h2⟩ := ih m1 (fun x hx => hall x (List.mem_cons_of_mem _ hx))
    exact ⟨m2, by simp only [Monitor.run, h1]; exact h2⟩

/-- C8, as the code has it: on every pass where the metadata is resolved and the
download is not complete, a total length above `0` gives exactly one percentage
line (`bytesCompleted / length * 100` with two decimals, the formatted byte
counts, the peer count and the bytes uploaded); a total length of `0` gives
exactly one raw byte count line when `bytesCompleted` is above `0`, and no line
at all when `bytesCompleted` is `0`. In each case the loop sleeps 2 seconds. -/
theorem progress_line (es : Bool) (sr : F64) (st : MonState) (o : Obs)
    (hnc : downloadComplete o = false) (hinfo : o.infoNil = false) (hr : o.inRange) :
    (0 < o.length → ∃ downloaded total uploaded,
      formatBytes o.bytesCompleted = some downloaded ∧ formatBytes o.length = some total ∧
      formatBytes o.bytesWritten = some uploaded ∧
      tick es sr st o = some
        ⟨⟨st.initialBytesCompleted, o.bytesWritten, st.seedingStarted⟩,
          [LogLine.progress
            (fmtFixed 2 (F64.mul (F64.div (F64.ofInt o.bytesCompleted) (F64.ofInt o.length))
              (F64.ofInt 100)))
            downloaded total o.activePeers uploaded],
          Control.sleep 2⟩) ∧
    (o.length = 0 → 0 < o.bytesCompleted →
      tick es sr st o = some
        ⟨⟨st.initialBytesCompleted, o.bytesWritten, st.seedingStarted⟩,
          [LogLine.downloadedBytes o.bytesCompleted], Control.sleep 2⟩) ∧
    (o.length = 0 → o.bytesCompleted ≤ 0 →
      tick es sr st o = some
        ⟨⟨st.initialBytesCompleted, o.bytesWritten, st.seedingStarted⟩, [],
          Control.sleep 2⟩) := by
  obtain ⟨r1, r2, r3, _⟩ := hr
  refine ⟨?_, ?_, ?_⟩
  · intro hl
    obtain ⟨d, hd⟩ := formatBytes_isSome o.bytesCompleted r1
    obtain ⟨t, ht⟩ := formatBytes_isSome o.length r2
    obtain ⟨u, hu⟩ := formatBytes_isSome o.bytesWritten r3
    refine ⟨d, t, u, hd, ht, hu, ?_⟩
    have h1 : ¬ (o.length = 0 ∧ 0 < o.bytesCompleted) := by omega
    simp only [tick, hnc, tickProgress, hinfo, h1, hl, hd, ht, hu, if_true, if_false,
      Bool.false_eq_true, percent]
  · intro hl hb
    have h1 : o.length = 0 ∧ 0 < o.bytesCompleted := ⟨hl, hb⟩
    simp only [tick, hnc, tickProgress, hinfo, h1, if_true, if_false, Bool.false_eq_true,
      and_self]
  · intro hl hb
    have h1 : ¬ (o.length = 0 ∧ 0 < o.bytesCompleted) := by omega
    have h2 : ¬ (0 < o.length) := by omega
    simp only [tick, hnc, tickProgress, hinfo, h1, h2, if_false, Bool.false_eq_true]

/-- C8 at a pass with `bytesCompleted = 1536` of `length = 1048576`: the
hypotheses hold and there are strings for the three byte counts of the line. -/
theorem progress_line_witness :
    downloadComplete ⟨1536, 1048576, 0, 3, false, "t"⟩ = false ∧
    ∃ downloaded total uploaded,
      formatBytes 1536 = some downloaded ∧ formatBytes 1048576 = some total ∧
      formatBytes 0 = some uploaded ∧
      tick false F64.zero MonState.init ⟨1536, 1048576, 0, 3, false, "t"⟩ = some
        ⟨⟨0, 0, false⟩,
          [LogLine.progress
            (fmtFixed 2 (F64.mul (F64.div (F64.ofInt 1536) (F64.ofInt 1048576)) (F64.ofInt 100)))
            downloaded total 3 uploaded],
          Control.sleep 2⟩ :=
  ⟨by decide,
    (progress_line false F64.zero MonState.init ⟨1536, 1048576, 0, 3, false, "t"⟩
      (by decide) rfl ⟨by decide, by decide, by decide, by decide⟩).1 (by decide)⟩

/-- C8 fails as stated: with the metadata resolved, a total length of `0` and
`bytesCompleted = 0`, the download is not complete and the pass logs no line. -/
theorem progress_line_counterexample :
    downloadComplete ⟨0, 0, 0, 0, false, "t"⟩ = false ∧
    (⟨0, 0, 0, 0, false, "t"⟩ : Obs).infoNil = false ∧
    (tick true (F64.ofInt 1) MonState.init ⟨0, 0, 0, 0, false, "t"⟩).map TickResult.logs
      = some [] := by
  refine ⟨by decide, rfl, ?_⟩
  decide

/-- C9: over every sequence of passes of the monitor the seeding baseline is
written at most once. In one pass, a started seeding and its baseline are kept;
a seeding not yet started starts exactly when the monitor runs, seeding is
enabled and the download is complete (`bytesCompleted == length > 0`), the
baseline then being the `bytesCompleted` of that pass, and otherwise the
baseline is kept. Over a sequence, once seeding has started both keep their
values for ever; the first pass with a complete download starts it when seeding
is enabled; with seeding disabled it never starts and the baseline stays `0`.
On observations of 64 bits every pass and every sequence of passes has a
result, and with seeding enabled the run over passes without a complete
download, then one with it, then any others, leaves the baseline at `0` before
that pass, writes the `bytesCompleted > 0` of that pass into it, and still has
this value at the end. -/
theorem baseline_written_once (es : Bool) (sr : F64) :
    (∀ m o m1, Monitor.step es sr m o = some m1 →
      (m.state.seedingStarted = true →
        m1.state.seedingStarted = true ∧
        m1.state.initialBytesCompleted = m.state.initialBytesCompleted) ∧
      (m.state.seedingStarted = false →
        (m1.state.seedingStarted = true ↔
          (m.returned = false ∧ es = true ∧ o.bytesCompleted = o.length ∧ 0 < o.length)) ∧
        (m1.state.seedingStarted = true → m1.state.initialBytesCompleted = o.bytesCompleted) ∧
        (m1.state.seedingStarted = false →
          m1.state.initialBytesCompleted = m.state.initialBytesCompleted))) ∧
    (∀ m obs m1, Monitor.run es sr m obs = some m1 → m.state.seedingStarted = true →
      m1.state.seedingStarted = true ∧
      m1.state.initialBytesCompleted = m.state.initialBytesCompleted) ∧
    (∀ pre o m, es = true → (∀ x ∈ pre, downloadComplete x = false) →
      downloadComplete o = true →
      Monitor.run es sr Monitor.start (pre ++ [o]) = some m →
      (∃ m0, Monitor.run es sr Monitor.start pre = some m0 ∧
        m0.state.seedingStarted = false ∧ m0.state.initialBytesCompleted = 0) ∧
      m.state.seedingStarted = true ∧ m.state.initialBytesCompleted = o.bytesCompleted) ∧
    (es = false → ∀ obs m, Monitor.run es sr Monitor.start obs = some m →
      m.state.seedingStarted = false ∧ m.state.initialBytesCompleted = 0) ∧
    (∀ m o, o.inRange → ∃ m1, Monitor.step es sr m o = some m1) ∧
    (∀ m obs, (∀ o ∈ obs, o.inRange) → ∃ m1, Monitor.run es sr m obs = some m1) ∧
    (∀ pre o post, es = true → (∀ x ∈ pre, downloadComplete x = false) →
      downloadComplete o = true → (∀ x ∈ pre ++ o :: post, x.inRange) →
      ∃ m0 m1 m2,
        Monitor.run es sr Monitor.start pre = some m0 ∧
        m0.state.seedingStarted = false ∧ m0.state.initialBytesCompleted = 0 ∧
        Monitor.run es sr Monitor.start (pre ++ [o]) = some m1 ∧
        m1.state.seedingStarted = true ∧ m1.state.initialBytesCompleted = o.bytesCompleted ∧
        0 < o.bytesCompleted ∧
        Monitor.run es sr Monitor.start (pre ++ o :: post) = some m2 ∧
        m2.state.seedingStarted = true ∧
        m2.state.initialBytesCompleted = o.bytesCompleted) := by
  have hfirst : ∀ pre o m, es = true → (∀ x ∈ pre, downloadComplete x = false) →
      downloadComplete o = true →
      Monitor.run es sr Monitor.start (pre ++ [o]) = some m →
      (∃ m0, Monitor.run es sr Monitor.start pre = some m0 ∧
        m0.state.seedingStarted = false ∧ m0.state.initialBytesCompleted = 0) ∧
      m.state.seedingStarted = true ∧ m.state.initialBytesCompleted = o.bytesCompleted := by
    intro pre o m hes hpre ho hrun
    rw [run_append] at hrun
    cases h0 : Monitor.run es sr Monitor.start pre with
    | none => rw [h0] at hrun; cases hrun
    | some m0 =>
      rw [h0] at hrun
      simp only [Option.bind, Monitor.run] at hrun
      obtain ⟨a1, a2, a3⟩ := run_not_complete es sr pre _ m0 h0 hpre
      have a1' : m0.returned = false := a1
      have a2' : m0.state.seedingStarted = false := a2
      have a3' : m0.state.initialBytesCompleted = 0 := a3
      refine ⟨⟨m0, rfl, a2', a3'⟩, ?_⟩
      split at hrun
      · cases hrun
      · rename_i m2 hstep
        cases hrun
        have hs := step_state es sr m0 m o hstep
        rw [hs]
        simp [a1', a2', ho, hes]
  refine ⟨?_, ?_, hfirst, ?_, ?_, ?_, ?_⟩
  · intro m o m1 h
    have hs := step_state es sr m m1 o h
    refine ⟨fun hst => step_keeps es sr m m1 o h hst, fun hst => ?_⟩
    rw [hs]
    by_cases hr : m.returned = true <;> by_cases hc : downloadComplete o = true <;>
      cases es <;> simp [hr, hc, hst] <;>
      simp [downloadComplete] at hc <;> exact hc
  · intro m obs m1 h hs
    exact run_keeps es sr obs m m1 h hs
  · intro hes obs m h
    subst hes
    exact run_disabled sr obs _ m h
  · intro m o h
    exact step_total es sr m o h
  · intro m obs h
    exact run_total es sr obs m h
  · intro pre o post hes hpre ho hall
    have hall1 : ∀ x ∈ pre ++ [o], x.inRange := by
      intro x hx
      apply hall x
      rcases List.mem_append.mp hx with h1 | h1
      · exact List.mem_append_left _ h1
      · simp only [List.mem_singleton] at h1
        subst h1
        exact List.mem_append_right _ (List.mem_cons_self _ _)
    obtain ⟨m1, h1⟩ := run_total es sr (pre ++ [o]) Monitor.start hall1
    obtain ⟨m2, h2⟩ := run_total es sr (pre ++ o :: post) Monitor.start hall
    obtain ⟨⟨m0, h0, a2, a3⟩, b1, b2⟩ := hfirst pre o m1 hes hpre ho h1
    have hpos : 0 < o.bytesCompleted := by
      simp only [downloadComplete, Bool.and_eq_true, decide_eq_true_eq] at ho
      omega
    have hsplit : pre ++ o :: post = (pre ++ [o]) ++ post := by simp
    have h2' := h2
    rw [hsplit, run_append, h1] at h2'
    obtain ⟨c1, c2⟩ := run_keeps es sr post m1 m2 h2' b1
    exact ⟨m0, m1, m2, h0, a2, a3, h1, b1, b2, hpos, h2, c1, by rw [c2, b2]⟩

theorem ofInt_pos (i : Int) (h : 0 < i) : F64.gt (F64.ofInt i) F64.zero = true := by
  obtain ⟨n, rfl⟩ : ∃ n : Nat, i = (n : Int) := ⟨i.toNat, by omega⟩
  have hn : 0 < n := by exact_mod_cast h
  rw [ofInt_natCast_round]
  unfold F64.round
  have hn0 : n ≠ 0 := by omega
  simp only [hn0, if_false, floorLog2_one n hn]
  have he : max ((ilog2 n : Int) - 52) (-1074) = (ilog2 n : Int) - 52 := by omega
  rw [he]
  rcases Nat.lt_or_ge (ilog2 n) 52 with hl | hl
  · have h1 : ¬ (0 ≤ (ilog2 n : Int) - 52) := by omega
    simp only [h1, if_false, rne_one, F64.gt, F64.zero, F64.scaled, decide_eq_true_eq,
      Bool.false_eq_true]
    have := Nat.mul_pos hn (Nat.two_pow_pos (-((ilog2 n : Int) - 52)).toNat)
    simp only [Nat.zero_mul, Nat.mul_one]
    exact_mod_cast this
  · have h1 : (0 : Int) ≤ (ilog2 n : Int) - 52 := by omega
    simp only [h1, if_true]
    split
    · rfl
    · have hle : 2 ^ ((ilog2 n : Int) - 52).toNat ≤ n := by
        have h2 : ((ilog2 n : Int) - 52).toNat ≤ ilog2 n := by omega
        exact Nat.le_trans (Nat.pow_le_pow_right (by decide) h2) (ilog2_spec n hn).1
      have hm : 1 ≤ rne n (1 * 2 ^ ((ilog2 n : Int) - 52).toNat) := by
        rw [Nat.one_mul]
        have : 1 ≤ n / 2 ^ ((ilog2 n : Int) - 52).toNat :=
          (Nat.le_div_iff_mul_le (Nat.two_pow_pos _)).mpr (by simpa using hle)
        exact Nat.le_trans this (rne_ge _ _)
      have := Nat.mul_pos hm (Nat.two_pow_pos ((ilog2 n : Int) - 52).toNat)
      simp only [F64.gt, F64.zero, F64.scaled, decide_eq_true_eq, Bool.false_eq_true, if_false,
        Nat.zero_mul, Nat.mul_one]
      exact_mod_cast this

theorem monReach_inv (es : Bool) (sr : F64) (st : MonState) (h : MonReach es sr st) :
    st.seedingStarted = true → 0 < st.initialBytesCompleted := by
  induction h with
  | init => intro h; cases h
  | step hreach ht ih =>
    rename_i st0 o r
    intro hs
    rw [tick_state es sr st0 o r ht] at hs ⊢
    by_cases hc : (downloadComplete o && (!st0.seedingStarted && es)) = true
    · simp only [hc, if_true]
      simp only [downloadComplete, Bool.and_eq_true, decide_eq_true_eq] at hc
      omega
    · simp only [hc, if_false, Bool.false_eq_true] at hs ⊢
      exact ih hs

/-- C10: in every state of the monitor variables reachable from the initial one,
`seedingStarted` implies that the baseline `initialBytesCompleted` is above `0`;
hence after every pass in which seeding has started, so in every pass that
computes `currentRatio`, the divisor is positive, also once converted to
`float64`. -/
theorem baseline_positive (es : Bool) (sr : F64) :
    (∀ st, MonReach es sr st → st.seedingStarted = true → 0 < st.initialBytesCompleted) ∧
    (∀ st o r, MonReach es sr st → tick es sr st o = some r → r.state.seedingStarted = true →
      0 < r.state.initialBytesCompleted ∧
      F64.gt (F64.ofInt r.state.initialBytesCompleted) F64.zero = true) := by
  refine ⟨fun st h => monReach_inv es sr st h, ?_⟩
  intro st o r hreach ht hs
  have hpos := monReach_inv es sr r.state (MonReach.step hreach ht) hs
  exact ⟨hpos, ofInt_pos _ hpos⟩

/-- C10 at the first pass with a complete download of `1000` bytes and seeding
enabled: seeding has started and the baseline is above `0`. -/
theorem baseline_positive_witness :
    0 < (⟨1000, 0, true⟩ : MonState).initialBytesCompleted :=
  ((baseline_positive true F64.zero).2 MonState.init ⟨1000, 1000, 0, 0, false, "t"⟩
    ⟨⟨1000, 0, true⟩, [LogLine.downloadComplete "t", LogLine.seeding "t" "0 B"],
      Control.sleep 5⟩ MonReach.init (by decide) rfl).1

/-- C9 with seeding enabled on three passes, reading `500`, then `1000`, then
`1000` bytes completed of `1000`: the baseline is `0` after the first pass, it
is written with `1000` at the second and is still `1000` after the third. -/
theorem baseline_written_once_witness :
    ∃ m0 m1 m2,
      Monitor.run true F64.zero Monitor.start [⟨500, 1000, 0, 1, false, "t"⟩] = some m0 ∧
      m0.state.seedingStarted = false ∧ m0.state.initialBytesCompleted = 0 ∧
      Monitor.run true F64.zero Monitor.start
        ([⟨500, 1000, 0, 1, false, "t"⟩] ++ [⟨1000, 1000, 0, 1, false, "t"⟩]) = some m1 ∧
      m1.state.seedingStarted = true ∧
      m1.state.initialBytesCompleted = (⟨1000, 1000, 0, 1, false, "t"⟩ : Obs).bytesCompleted ∧
      0 < (⟨1000, 1000, 0, 1, false, "t"⟩ : Obs).bytesCompleted ∧
      Monitor.run true F64.zero Monitor.start
        ([⟨500, 1000, 0, 1, false, "t"⟩] ++
          ⟨1000, 1000, 0, 1, false, "t"⟩ :: [⟨1000, 1000, 700, 1, false, "t"⟩]) = some m2 ∧
      m2.state.seedingStarted = true ∧
      m2.state.initialBytesCompleted = (⟨1000, 1000, 0, 1, false, "t"⟩ : Obs).bytesCompleted :=
  (baseline_written_once true F64.zero).2.2.2.2.2.2
    [⟨500, 1000, 0, 1, false, "t"⟩] ⟨1000, 1000, 0, 1, false, "t"⟩
    [⟨1000, 1000, 700, 1, false, "t"⟩] rfl
    (by
      intro x hx
      simp only [List.mem_singleton] at hx
      subst hx
      decide)
    (by decide)
    (by
      intro x hx
      simp only [List.singleton_append, List.mem_cons, List.mem_singleton, List.not_mem_nil,
        or_false] at hx
      rcases hx with rfl | rfl | rfl <;> exact ⟨by decide, by decide, by decide, by decide⟩)

theorem tick_seeding (sr : F64) (st : MonState) (o : Obs) (B : Int)
    (hsr : F64.gt sr F64.zero = true) (hc : downloadComplete o = true)
    (hb : o.bytesCompleted = B) (hst : st.seedingStarted = true → st.initialBytesCompleted = B)
    (hr : o.bytesWritten < 2 ^ 63) :
    ∃ r, tick true sr st o = some r ∧ r.state = ⟨B, o.bytesWritten, true⟩ ∧
      r.next = if ratioReached sr B o then Control.stop true else Control.sleep 5 := by
  obtain ⟨up, hup⟩ := formatBytes_isSome o.bytesWritten hr
  unfold ratioReached
  by_cases hs : st.seedingStarted = true
  · have hi := hst hs
    simp only [tick, hc, if_true, tickComplete, currentRatio, hs, hsr, hup, hi, Bool.not_true,
      Bool.false_and, Bool.and_self, Bool.false_eq_true, if_false]
    by_cases hg : F64.ge (F64.div (F64.ofInt o.bytesWritten) (F64.ofInt B)) sr = true
    · simp only [hg, if_true]
      exact ⟨_, rfl, rfl, rfl⟩
    · simp only [hg, if_false, Bool.false_eq_true]
      exact ⟨_, rfl, rfl, rfl⟩
  · have hs' : st.seedingStarted = false := by simpa using hs
    simp only [tick, hc, if_true, tickComplete, currentRatio, hs', hsr, hup, hb, Bool.not_false,
      Bool.and_self, Bool.not_true, Bool.false_eq_true, if_false]
    by_cases hg : F64.ge (F64.div (F64.ofInt o.bytesWritten) (F64.ofInt B)) sr = true
    · simp only [hg, if_true]
      exact ⟨_, rfl, rfl, rfl⟩
    · simp only [hg, if_false, Bool.false_eq_true]
      exact ⟨_, rfl, rfl, rfl⟩

theorem step_seeding (sr : F64) (m : Monitor) (o : Obs) (B : Int)
    (hsr : F64.gt sr F64.zero = true) (hm : Seeding B m) (ho : CompleteAt B o) :
    Monitor.step true sr m o = some
      (if ratioReached sr B o then ⟨⟨B, o.bytesWritten, true⟩, true, m.ticks + 1, m.requests + 1⟩
       else ⟨⟨B, o.bytesWritten, true⟩, false, m.ticks + 1, m.requests⟩) := by
  obtain ⟨hret, hst⟩ := hm
  obtain ⟨hc, hb, hr⟩ := ho
  obtain ⟨r, ht, hs, hn⟩ := tick_seeding sr m.state o B hsr hc hb hst hr
  unfold Monitor.step
  simp only [hret, ht, Bool.false_eq_true, if_false]
  by_cases hg : ratioReached sr B o = true
  · simp only [hg, if_true] at hn ⊢
    simp only [hn, hs]
  · simp only [hg, if_false, Bool.false_eq_true] at hn ⊢
    simp only [hn, hs]

theorem run_returned (es : Bool) (sr : F64) (obs : List Obs) :
    ∀ m, m.returned = true → Monitor.run es sr m obs = some m := by
  induction obs with
  | nil => intro m _; rfl
  | cons o os ih =>
    intro m hm
    have : Monitor.step es sr m o = some m := by simp [Monitor.step, hm]
    simp only [Monitor.run, this]
    exact ih m hm

theorem run_seeding_below (sr : F64) (B : Int) (hsr : F64.gt sr F64.zero = true)
    (obs : List Obs) :
    ∀ m, Seeding B m → (∀ o ∈ obs, CompleteAt B o ∧ ratioReached sr B o = false) →
      ∃ m1, Monitor.run true sr m obs = some m1 ∧ Seeding B m1 ∧
        m1.requests = m.requests ∧ m1.ticks = m.ticks + obs.length := by
  induction obs with
  | nil => intro m hm _; exact ⟨m, rfl, hm, rfl, rfl⟩
  | cons o os ih =>
    intro m hm hall
    obtain ⟨ho, hno⟩ := hall o (List.mem_cons_self _ _)
    have hstep := step_seeding sr m o B hsr hm ho
    simp only [hno, if_false, Bool.false_eq_true] at hstep
    obtain ⟨m1, h1, h2, h3, h4⟩ := ih ⟨⟨B, o.bytesWritten, true⟩, false, m.ticks + 1, m.requests⟩
      ⟨rfl, fun _ => rfl⟩ (fun x hx => hall x (List.mem_cons_of_mem _ hx))
    refine ⟨m1, ?_, h2, h3, ?_⟩
    · simp only [Monitor.run, hstep]
      exact h1
    · rw [h4]
      simp only [List.length_cons]
      omega

theorem run_seeding_reached (sr : F64) (B : Int) (hsr : F64.gt sr F64.zero = true)
    (pre post : List Obs) (o : Obs) (m : Monitor) (hm : Seeding B m)
    (hpre : ∀ x ∈ pre, CompleteAt B x ∧ ratioReached sr B x = false)
    (ho : CompleteAt B o) (hreach : ratioReached sr B o = true) :
    ∃ m1, Monitor.run true sr m (pre ++ o :: post) = some m1 ∧ m1.returned = true ∧
      m1.requests = m.requests + 1 ∧ m1.ticks = m.ticks + pre.length + 1 := by
  obtain ⟨m0, h0, hs0, hr0, ht0⟩ := run_seeding_below sr B hsr pre m hm hpre
  have hstep := step_seeding sr m0 o B hsr hs0 ho
  simp only [hreach, if_true] at hstep
  refine ⟨⟨⟨B, o.bytesWritten, true⟩, true, m0.ticks + 1, m0.requests + 1⟩, ?_, rfl, ?_, ?_⟩
  · rw [run_append, h0]
    simp only [Option.bind, Monitor.run, hstep]
    exact run_returned true sr post _ rfl
  · simp only [hr0]
  · simp only [ht0]

/-! ### The ratio test against `1.0` with the baseline `1000` -/

theorem ge_one_iff (a b q : Nat) (hq : 0 < q) :
    F64.ge (F64.finite false a b) (F64.finite false q q) = decide (b ≤ a) := by
  simp only [F64.ge, F64.scaled, Bool.false_eq_true, if_false]
  congr 1
  apply propext
  constructor
  · intro h
    have h1 : q * b ≤ a * q := by exact_mod_cast h
    rw [Nat.mul_comm a q] at h1
    exact Nat.le_of_mul_le_mul_left h1 hq
  · intro h
    have h1 : q * b ≤ a * q := by
      rw [Nat.mul_comm a q]; exact Nat.mul_le_mul_left q h
    exact_mod_cast h1

theorem ge_one_of_neg (x : F64) (q : Nat) (hq : 0 < q)
    (hx : x = F64.inf true ∨ ∃ a b, 0 < b ∧ x = F64.finite true a b) :
    F64.ge x (F64.finite false q q) = false := by
  rcases hx with rfl | ⟨a, b, hb, rfl⟩
  · rfl
  · simp only [F64.ge, F64.scaled, Bool.false_eq_true, if_false, if_true, decide_eq_false_iff_not,
      not_le]
    have : 0 < q * b := Nat.mul_pos hq hb
    have h1 : (0 : Int) < ((q * b : Nat) : Int) := by exact_mod_cast this
    have h2 : (0 : Int) ≤ ((a * q : Nat) : Int) := by positivity
    omega

/-- The result of a rounding: a fraction with a positive denominator, or an
infinity, of the sign handed in. -/
theorem round_shape (neg : Bool) (p q : Nat) :
    F64.round neg p q = F64.inf neg ∨ ∃ a b, 0 < b ∧ F64.round neg p q = F64.finite neg a b := by
  unfold F64.round
  split
  · exact Or.inr ⟨0, 1, by decide, rfl⟩
  · simp only
    split
    · split
      · exact Or.inl rfl
      · exact Or.inr ⟨_, 1, by decide, rfl⟩
    · exact Or.inr ⟨_, _, Nat.two_pow_pos _, rfl⟩

theorem ofInt_shape (i : Int) :
    F64.ofInt i = F64.inf (decide (i < 0)) ∨
      ∃ a b, 0 < b ∧ F64.ofInt i = F64.finite (decide (i < 0)) a b := by
  unfold F64.ofInt
  exact round_shape _ _ _

theorem ofInt_1000 : F64.ofInt 1000 = F64.finite false (1000 * 2 ^ 43) (2 ^ 43) := by
  decide

theorem ratio_neg (bw : Int) (h : bw < 0) (q : Nat) (hq : 0 < q) :
    F64.ge (currentRatio bw 1000) (F64.finite false q q) = false := by
  apply ge_one_of_neg _ q hq
  unfold currentRatio
  rw [ofInt_1000]
  have hd : decide (bw < 0) = true := by simpa using h
  rcases ofInt_shape bw with h1 | ⟨a, b, hb, h1⟩
  · rw [h1, hd]
    left; rfl
  · rw [h1, hd]
    have hne : 1000 * 2 ^ 43 ≠ 0 := by norm_num
    simp only [F64.div, hne, if_false, Bool.xor_false]
    rcases round_shape true (a * 2 ^ 43) (b * (1000 * 2 ^ 43)) with h2 | ⟨c, d, hd2, h2⟩
    · left; exact h2
    · right; exact ⟨c, d, hd2, h2⟩

theorem ratio_zero (q : Nat) (hq : 0 < q) :
    F64.ge (currentRatio 0 1000) (F64.finite false q q) = false := by
  have h : currentRatio 0 1000 = F64.finite false 0 1 := by decide
  rw [h, ge_one_iff 0 1 q hq]
  decide

theorem ratio_pos_eq (n : Nat) (hn : 0 < n) (hn2 : n < 2 ^ 63) :
    currentRatio (n : Int) 1000 = F64.round false (nearest53 n) 1000 := by
  unfold currentRatio
  have h := div_ofInt_ofInt n 1000 hn (by omega) (by decide) (by norm_num)
  have h2 : nearest53 1000 = 1000 := by decide
  rw [h2] at h
  exact h

theorem ratio_below (n : Nat) (hn : 0 < n) (hlt : n < 1000) (q : Nat) (hq : 0 < q) :
    F64.ge (currentRatio (n : Int) 1000) (F64.finite false q q) = false := by
  rw [ratio_pos_eq n hn (by omega), nearest53_small n (by omega)]
  have hq0 : 0 < 1000 / n := Nat.div_pos (by omega) hn
  have ht9 : ilog2 (1000 / n) < 10 :=
    ilog2_lt_of_lt _ 10 hq0 (by
      have : 1000 / n ≤ 1000 := Nat.div_le_self _ _
      omega)
  obtain ⟨t, ht1, ht2, hfl⟩ : ∃ t : Nat, 53 ≤ t ∧ t ≤ 62 ∧
      floorLog2 n 1000 - 52 = -(t : Int) := by
    unfold floorLog2
    have hnot : ¬ (1000 ≤ n) := by omega
    simp only [hnot, if_false]
    split
    · rename_i hle
      have h0 : ilog2 (1000 / n) ≠ 0 := by
        intro h0
        rw [h0] at hle
        omega
      exact ⟨52 + ilog2 (1000 / n), by omega, by omega, by omega⟩
    · exact ⟨53 + ilog2 (1000 / n), by omega, by omega, by omega⟩
  rw [round_of_neg_exp false n 1000 hn t hfl (by omega) (by omega), ge_one_iff _ _ q hq]
  have hX : 2 ^ 53 ≤ 2 ^ t := Nat.pow_le_pow_right (by decide) ht1
  have h1 : n * 2 ^ t ≤ 999 * 2 ^ t := Nat.mul_le_mul_right _ (by omega)
  have h2 : n * 2 ^ t / 1000 ≤ 999 * 2 ^ t / 1000 := Nat.div_le_div_right h1
  have h3 := rne_le (n * 2 ^ t) 1000
  have h53 : (2:Nat) ^ 53 = 9007199254740992 := by norm_num
  simp only [decide_eq_false_iff_not, not_le]
  omega

theorem ratio_above (n : Nat) (hge : 1000 ≤ n) (hn2 : n < 2 ^ 63) (q : Nat) (hq : 0 < q) :
    F64.ge (currentRatio (n : Int) 1000) (F64.finite false q q) = true := by
  have hn : 0 < n := by omega
  rw [ratio_pos_eq n hn hn2]
  obtain ⟨b1, b2, _⟩ := nearest53_bounds n hn
  have hP : 1000 ≤ nearest53 n := by
    rcases Nat.lt_or_ge n (2 ^ 53) with h | h
    · rw [nearest53_small n h]; exact hge
    · have : 53 ≤ ilog2 n := le_ilog2_of_le n 53 h
      have : (2:Nat) ^ 53 ≤ 2 ^ ilog2 n := Nat.pow_le_pow_right (by decide) this
      have h53 : (2:Nat) ^ 53 = 9007199254740992 := by norm_num
      omega
  have hP2 : nearest53 n ≤ 2 ^ 63 := by
    have : ilog2 n < 63 := ilog2_lt_of_lt n 63 hn hn2
    exact Nat.le_trans b2 (Nat.pow_le_pow_right (by decide) (by omega))
  have hP0 : 0 < nearest53 n := by omega
  have hq0 : 0 < nearest53 n / 1000 := Nat.div_pos hP (by decide)
  obtain ⟨l1, l2⟩ := ilog2_spec _ hq0
  have hfl : floorLog2 (nearest53 n) 1000 = (ilog2 (nearest53 n / 1000) : Int) := by
    unfold floorLog2
    simp [hP]
  have hL64 : ilog2 (nearest53 n / 1000) < 64 :=
    ilog2_lt_of_lt _ 64 hq0 (by
      have : nearest53 n / 1000 ≤ nearest53 n := Nat.div_le_self _ _
      have h63 : (2:Nat) ^ 63 < 2 ^ 64 := by norm_num
      omega)
  have hmul : 2 ^ ilog2 (nearest53 n / 1000) * 1000 ≤ nearest53 n :=
    (Nat.le_div_iff_mul_le (by decide)).mp l1
  rcases Nat.lt_or_ge (ilog2 (nearest53 n / 1000)) 52 with hL | hL
  · rw [round_of_neg_exp false (nearest53 n) 1000 hP0 (52 - ilog2 (nearest53 n / 1000))
      (by rw [hfl]; omega) (by omega) (by omega), ge_one_iff _ _ q hq]
    simp only [decide_eq_true_eq]
    refine Nat.le_trans ?_ (rne_ge _ _)
    apply (Nat.le_div_iff_mul_le (by decide)).mpr
    rw [Nat.mul_comm (nearest53 n)]
    exact Nat.mul_le_mul_left _ hP
  · obtain ⟨e, he⟩ : ∃ e, ilog2 (nearest53 n / 1000) = 52 + e :=
      ⟨ilog2 (nearest53 n / 1000) - 52, by omega⟩
    have hle : 1000 * 2 ^ e ≤ nearest53 n := by
      have : (2:Nat) ^ e ≤ 2 ^ ilog2 (nearest53 n / 1000) :=
        Nat.pow_le_pow_right (by decide) (by omega)
      calc 1000 * 2 ^ e = 2 ^ e * 1000 := Nat.mul_comm _ _
        _ ≤ 2 ^ ilog2 (nearest53 n / 1000) * 1000 := Nat.mul_le_mul_right _ this
        _ ≤ nearest53 n := hmul
    have hm1 : 1 ≤ rne (nearest53 n) (1000 * 2 ^ e) := by
      refine Nat.le_trans ?_ (rne_ge _ _)
      exact (Nat.le_div_iff_mul_le (Nat.mul_pos (by decide) (Nat.two_pow_pos e))).mpr
        (by simpa using hle)
    have hm2 : rne (nearest53 n) (1000 * 2 ^ e) < 2 ^ 65 := by
      have h1 := rne_le (nearest53 n) (1000 * 2 ^ e)
      have h2 : nearest53 n / (1000 * 2 ^ e) ≤ nearest53 n := Nat.div_le_self _ _
      have h63 : (2:Nat) ^ 63 + 1 < 2 ^ 65 := by norm_num
      omega
    have hov : ilog2 (rne (nearest53 n) (1000 * 2 ^ e)) + e < 1024 := by
      have := ilog2_lt_of_lt _ 65 hm1 hm2
      omega
    rw [round_of_nonneg_exp false (nearest53 n) 1000 hP0 e (by rw [hfl]; omega) hov,
      ge_one_iff _ _ q hq]
    simp only [decide_eq_true_eq]
    exact Nat.mul_pos hm1 (Nat.two_pow_pos e)

/-- With the baseline `1000` and the target ratio `1.0`, the test
`currentRatio >= *seedRatio` succeeds exactly from `bytesUploaded = 1000` on. -/
theorem ratio_1000 (bw : Int) (hlo : -(2 ^ 63) ≤ bw) (hhi : bw < 2 ^ 63) (q : Nat) (hq : 0 < q) :
    F64.ge (currentRatio bw 1000) (F64.finite false q q) = decide (1000 ≤ bw) := by
  rcases lt_trichotomy bw 0 with h | h | h
  · rw [ratio_neg bw h q hq]
    symm; simp only [decide_eq_false_iff_not]; omega
  · subst h
    rw [ratio_zero q hq]
    rfl
  · obtain ⟨n, rfl⟩ : ∃ n : Nat, bw = (n : Int) := ⟨bw.toNat, by omega⟩
    have hn : 0 < n := by exact_mod_cast h
    have hn2 : n < 2 ^ 63 := by exact_mod_cast hhi
    rcases Nat.lt_or_ge n 1000 with hlt | hge
    · rw [ratio_below n hn hlt q hq]
      symm; simp only [decide_eq_false_iff_not]; omega
    · rw [ratio_above n hge hn2 q hq]
      symm; simp only [decide_eq_true_eq]; omega

/-- C6, as the code has it: take seeding enabled, a target ratio `r > 0`, and
passes that all read a complete download of `B` bytes (so `B > 0`), from a
monitor that runs and whose baseline, if already written, is `B`. The ratio
test is the one of `float64`: `float64(bytesUploaded) / float64(B) >= r`, the
quotient being rounded to `float64`. While no pass has it, the monitor keeps
running and sends no shutdown request. On the first pass that has it, and on no
earlier one, the monitor sends one request and returns; whatever is observed
afterwards, it makes no further pass and sends no further request. With
`B = 1000` and `r = 1.0` the test holds exactly when `bytesUploaded >= 1000`. -/
theorem seed_ratio_shutdown (sr : F64) (B : Int) (hsr : F64.gt sr F64.zero = true) :
    Seeding B Monitor.start ∧
    (∀ m0 obs, Seeding B m0 → (∀ o ∈ obs, CompleteAt B o ∧ ratioReached sr B o = false) →
      ∃ m, Monitor.run true sr m0 obs = some m ∧ m.returned = false ∧
        m.requests = m0.requests ∧ m.ticks = m0.ticks + obs.length) ∧
    (∀ m0 pre o post, Seeding B m0 →
      (∀ x ∈ pre, CompleteAt B x ∧ ratioReached sr B x = false) →
      CompleteAt B o → ratioReached sr B o = true →
      (∃ m1, Monitor.run true sr m0 pre = some m1 ∧ m1.returned = false ∧
        m1.requests = m0.requests) ∧
      (∃ m2, Monitor.run true sr m0 (pre ++ [o]) = some m2 ∧ m2.returned = true ∧
        m2.requests = m0.requests + 1 ∧ m2.ticks = m0.ticks + pre.length + 1 ∧
        Monitor.run true sr m0 (pre ++ o :: post) = some m2)) ∧
    (∀ (o : Obs) (q : Nat), 0 < q → -(2 ^ 63) ≤ o.bytesWritten → o.bytesWritten < 2 ^ 63 →
      ratioReached (F64.finite false q q) 1000 o = decide (1000 ≤ o.bytesWritten)) := by
  refine ⟨⟨rfl, fun h => by cases h⟩, ?_, ?_, ?_⟩
  · intro m0 obs hm hall
    obtain ⟨m, h1, h2, h3, h4⟩ := run_seeding_below sr B hsr obs m0 hm hall
    exact ⟨m, h1, h2.1, h3, h4⟩
  · intro m0 pre o post hm hpre ho hreach
    obtain ⟨m1, h1, h2, h3, _⟩ := run_seeding_below sr B hsr pre m0 hm hpre
    refine ⟨⟨m1, h1, h2.1, h3⟩, ?_⟩
    obtain ⟨m2, a1, a2, a3, a4⟩ := run_seeding_reached sr B hsr pre [] o m0 hm hpre ho hreach
    obtain ⟨m3, b1, b2, b3, b4⟩ := run_seeding_reached sr B hsr pre post o m0 hm hpre ho hreach
    refine ⟨m2, a1, a2, a3, a4, ?_⟩
    rw [b1]
    rw [run_append] at a1 b1
    cases h0 : Monitor.run true sr m0 pre with
    | none => rw [h0] at a1; cases a1
    | some m =>
      rw [h0] at a1 b1
      simp only [Option.bind, Monitor.run] at a1 b1
      cases hs : Monitor.step true sr m o with
      | none => rw [hs] at a1; cases a1
      | some m4 =>
        rw [hs] at a1 b1
        simp only [Option.some.injEq] at a1
        subst a1
        have b5 : Monitor.run true sr m4 post = some m3 := b1
        rw [run_returned true sr post m4 a2] at b5
        exact b5.symm
  · intro o q hq hlo hhi
    exact ratio_1000 o.bytesWritten hlo hhi q hq

/-- C6 with the baseline `1000`, the target ratio `1.0` and passes reading `999`,
`1000` and `1001` bytes uploaded: no request after the first pass, one request
at the second, which is the last pass made. -/
theorem seed_ratio_shutdown_witness :
    F64.gt (F64.finite false 1 1) F64.zero = true ∧
    ∃ m2, Monitor.run true (F64.finite false 1 1) Monitor.start
        ([⟨1000, 1000, 999, 2, false, "t"⟩] ++ [⟨1000, 1000, 1000, 2, false, "t"⟩]) = some m2 ∧
      m2.returned = true ∧ m2.requests = Monitor.start.requests + 1 ∧
      m2.ticks = Monitor.start.ticks + [(⟨1000, 1000, 999, 2, false, "t"⟩ : Obs)].length + 1 ∧
      Monitor.run true (F64.finite false 1 1) Monitor.start
        ([⟨1000, 1000, 999, 2, false, "t"⟩] ++
          ⟨1000, 1000, 1000, 2, false, "t"⟩ :: [⟨1000, 1000, 1001, 2, false, "t"⟩]) = some m2 :=
  ⟨by decide,
    ((seed_ratio_shutdown (F64.finite false 1 1) 1000 (by decide)).2.2.1 Monitor.start
      [⟨1000, 1000, 999, 2, false, "t"⟩] ⟨1000, 1000, 1000, 2, false, "t"⟩
      [⟨1000, 1000, 1001, 2, false, "t"⟩] ⟨rfl, fun h => by cases h⟩
      (by
        intro x hx
        simp only [List.mem_singleton] at hx
        subst hx
        exact ⟨⟨by decide, rfl, by decide⟩, by decide⟩)
      ⟨by decide, rfl, by decide⟩ (by decide)).2⟩

/-- C6 fails as stated: with the baseline `1000`, the target ratio `float64(0.1)`
(which is above `0.1`) and `100` bytes uploaded, the exact ratio `100 / 1000` is
below the target, but its `float64` quotient is `float64(0.1)` itself, and the
monitor sends its shutdown request on that pass. -/
theorem seed_ratio_shutdown_counterexample :
    F64.div (F64.ofInt 1) (F64.ofInt 10) = F64.finite false 7205759403792794 (2 ^ 56) ∧
    10 * 7205759403792794 > 2 ^ 56 ∧
    F64.gt (F64.finite false 7205759403792794 (2 ^ 56)) F64.zero = true ∧
    downloadComplete ⟨1000, 1000, 100, 0, false, "t"⟩ = true ∧
    ratioReachedClaimed (F64.finite false 7205759403792794 (2 ^ 56)) 1000
      ⟨1000, 1000, 100, 0, false, "t"⟩ = false ∧
    ratioReached (F64.finite false 7205759403792794 (2 ^ 56)) 1000
      ⟨1000, 1000, 100, 0, false, "t"⟩ = true ∧
    Monitor.run true (F64.finite false 7205759403792794 (2 ^ 56)) Monitor.start
      [⟨1000, 1000, 100, 0, false, "t"⟩] = some ⟨⟨1000, 100, true⟩, true, 1, 1⟩ := by
  refine ⟨by decide, by decide, by decide, by decide, by decide, by decide, by decide⟩

/-! ## Shutdown -/

theorem Proc.inv_step (p : Proc) (s : Step) (h : p.Inv) : (p.step s).Inv := by
  obtain ⟨sc, hd, ph, cc, dd, n, rn⟩ := p
  cases s <;> cases hd <;> cases ph <;> cases rn <;>
    simp [Proc.step, Proc.Inv, Proc.accounted] at h ⊢ <;>
    (try split_ifs) <;> simp_all

theorem Proc.inv_run (steps : List Step) : ∀ p : Proc, p.Inv → (p.run steps).Inv := by
  induction steps with
  | nil => intro p h; exact h
  | cons s ss ih =>
    intro p h
    exact ih (p.step s) (Proc.inv_step p s h)

theorem Proc.inv_init : Proc.init.Inv := ⟨rfl, fun h => by cases h⟩

/-- C7, as the code has it: in every execution `client.Close()` is invoked once by
the handler goroutine if that goroutine has received a signal and made its call,
and once by the deferred call if `main` has returned, and by nothing else; so it
is invoked at most twice, at least once when `main` returns, and twice exactly
when the handler has made its call as well. -/
theorem close_calls (steps : List Step) :
    (Proc.init.run steps).closeCalls = (Proc.init.run steps).accounted ∧
    (Proc.init.run steps).closeCalls ≤ 2 ∧
    ((Proc.init.run steps).returnedNormally = true →
      1 ≤ (Proc.init.run steps).closeCalls ∧
      ((Proc.init.run steps).closeCalls = 2 ↔
        (Proc.init.run steps).handler = Handler.done)) := by
  obtain ⟨h1, _⟩ := Proc.inv_run steps Proc.init Proc.inv_init
  refine ⟨h1, ?_, ?_⟩
  · rw [h1]
    unfold Proc.accounted
    split <;> split <;> omega
  · intro hr
    rw [h1]
    unfold Proc.accounted
    simp only [hr, if_true]
    split <;> simp_all

/-- C7 on the execution in which the download completes and no signal arrives:
`main` returns and `client.Close()` has been invoked once or more. -/
theorem close_calls_witness :
    (Proc.init.run [Step.addSucceeds, Step.downloadFinishes, Step.mainReturns]).returnedNormally
      = true ∧
    1 ≤ (Proc.init.run [Step.addSucceeds, Step.downloadFinishes, Step.mainReturns]).closeCalls :=
  ⟨by decide,
    ((close_calls [Step.addSucceeds, Step.downloadFinishes, Step.mainReturns]).2.2
      (by decide)).1⟩

/-- C7 fails as stated: when an interrupt arrives during the download, the
handler invokes `client.Close()`, `WaitAll` returns and the deferred call invokes
it again, two invocations; the same holds when the ratio request of the monitor
arrives while the handler deals with an interrupt. -/
theorem close_calls_counterexample :
    (Proc.init.run [Step.addSucceeds, Step.osSignal, Step.handlerReceive, Step.handlerClose,
      Step.mainReturns]).closeCalls = 2 ∧
    (Proc.init.run [Step.addSucceeds, Step.osSignal, Step.handlerReceive, Step.ratioRequest,
      Step.handlerClose, Step.mainReturns]).closeCalls = 2 ∧
    (Proc.init.run [Step.addSucceeds, Step.ratioRequest, Step.handlerReceive, Step.handlerClose,
      Step.mainReturns]).closeCalls = 2 := by
  decide

end GoTorrent
